import Mathlib

/-!
Verification of the session/presence/history coordination engine of the
anonymous-chatroom server (`app.py`).

The Python source is shallowly embedded:
* `censor_message` models the `re.sub(r'\b' + word + r'\b', '*'*len(word), msg,
  re.IGNORECASE)` loop over `BAD_WORDS`, with ASCII word-character and
  case-folding semantics (every `BAD_WORDS` entry is a lowercase ASCII word,
  and the replacement character `'*'` is ASCII).
* The socket handlers (`handle_connect`, `handle_disconnect`,
  `handle_send_message`, `handle_is_typing`, `handle_not_typing`) become pure
  transition functions on a `ServerState`, returning the updated state and the
  list of transport emissions.  Python dicts become association lists with
  replace-or-append assignment, Python sets become duplicate-free lists.
* Instants (`time.time()` / `datetime.now()`) are modelled as integers.
-/

/-! ### Characters: ASCII word characters and case folding -/

/-- ASCII reading of the regex `\w` class: `[A-Za-z0-9_]`. -/
def isWordChar (c : Char) : Bool :=
  (65 ≤ c.toNat && c.toNat ≤ 90) || (97 ≤ c.toNat && c.toNat ≤ 122) ||
  (48 ≤ c.toNat && c.toNat ≤ 57) || c.toNat == 95

/-- ASCII case folding, as a numeric code (uppercase letters map to their
lowercase counterparts, everything else is unchanged). -/
def lowerNat (c : Char) : Nat :=
  if 65 ≤ c.toNat ∧ c.toNat ≤ 90 then c.toNat + 32 else c.toNat

/-- Case-insensitive character comparison (the effect of `re.IGNORECASE`). -/
def ciEq (c d : Char) : Bool := lowerNat c == lowerNat d

/-- Word-character test on an optional character; a missing character (start
or end of the string) counts as a non-word character, as in `re`. -/
def optWord : Option Char → Bool
  | none => false
  | some c => isWordChar c

/-- `ciStarts w t`: the text `t` starts with the pattern word `w`,
case-insensitively. -/
def ciStarts : List Char → List Char → Bool
  | [], _ => true
  | _ :: _, [] => false
  | c :: cs, d :: ds => ciEq c d && ciStarts cs ds

/-- `headMatch w prev t`: the regex `\b<w>\b` (with `re.IGNORECASE`) matches at
the start of `t`, where `prev` is the character immediately preceding `t` in
the full subject string (`none` at the start of the subject).  A `\b` holds
between two positions exactly when one side is a word character and the other
is not. -/
def headMatch (w : List Char) (prev : Option Char) (t : List Char) : Bool :=
  !w.isEmpty && (optWord prev != optWord t[0]?) && ciStarts w t &&
    (optWord t[w.length - 1]? != optWord t[w.length]?)

/-- Mask for a matched word: a run of `'*'` of the same length
(`'*' * len(word)` in the source). -/
def maskOf (w : List Char) : List Char := List.replicate w.length '*'

/-- Left-to-right scan of `re.sub`: at each position try to match `\b<w>\b`;
on a match emit the mask and resume after the matched span (matching always
against the original characters, as `re.sub` does), otherwise keep the
character and advance.  `fuel` only forces structural recursion; it is always
called with `fuel ≥ length of the text`. -/
def scanGo (w : List Char) : Nat → Option Char → List Char → List Char
  | _, _, [] => []
  | 0, _, t => t
  | fuel + 1, prev, c :: cs =>
    if headMatch w prev (c :: cs) then
      maskOf w ++ scanGo w fuel (some ((c :: cs).getD (w.length - 1) c)) ((c :: cs).drop w.length)
    else
      c :: scanGo w fuel (some c) cs

/-- `re.sub(r'\b'+w+r'\b', '*'*len(w), t, flags=re.IGNORECASE)` on the
character list `t`. -/
def subWord (w : List Char) (t : List Char) : List Char :=
  scanGo w t.length none t

/-- One iteration of the loop body of `censor_message`. -/
def censorWord (s : String) (w : String) : String :=
  ⟨subWord w.data s.data⟩

/-- The disallowed-term list of the source (`BAD_WORDS`). -/
def BAD_WORDS : List String :=
  ["hate", "harass", "slur", "offensive", "fuck", "shit", "ass", "bastard",
   "bitch", "cock", "dick", "whore", "sex"]

/-- `censor_message` of the source: sequentially replace every whole-word
occurrence of each disallowed term by a run of asterisks of the same length. -/
def censor_message (msg : String) : String :=
  BAD_WORDS.foldl censorWord msg

/-! ### Declarative match semantics (used to state the filter claims) -/

/-- The character preceding position `i` of `t`, where `prev` precedes `t`
itself. -/
def prevAt (prev : Option Char) (t : List Char) (i : Nat) : Option Char :=
  if i = 0 then prev else t[i - 1]?

/-- `matchAt w prev t i`: the regex `\b<w>\b` matches the subject `t` (preceded
by `prev`) at position `i`. -/
def matchAt (w : List Char) (prev : Option Char) (t : List Char) (i : Nat) : Bool :=
  headMatch w (prevAt prev t i) (t.drop i)

/-- `covWord w prev t j`: position `j` of `t` lies inside some whole-word
match of `w`. -/
def covWord (w : List Char) (prev : Option Char) (t : List Char) (j : Nat) : Bool :=
  (List.range (j + 1)).any (fun i => matchAt w prev t i && decide (j < i + w.length))

/-- Position `j` of `t` lies inside a whole-word match of one of the words
`ws` (matching each word against the unmodified `t`). -/
def coveredAny (ws : List (List Char)) (t : List Char) (j : Nat) : Bool :=
  ws.any (fun w => covWord w none t j)

/-- Pointwise masking: replace the characters at the positions selected by
`f` (indices counted from `j`) with `'*'`. -/
def maskIdx (f : Nat → Bool) : Nat → List Char → List Char
  | _, [] => []
  | j, c :: cs => (if f j then '*' else c) :: maskIdx f (j + 1) cs

/-- The `BAD_WORDS` entries as character lists. -/
def badLists : List (List Char) := BAD_WORDS.map String.data

/-- Modelled from the spec: the reference semantics of the content filter.
All disallowed terms are matched against the unmodified original input and
every matched span is replaced by asterisks.  (The spec's list-order
shielding clause for overlapping terms is vacuous here: whole-word matches of
the all-letter `BAD_WORDS` entries can never overlap, see `matchAt_no_overlap`.) -/
def refCensor (msg : String) : String :=
  ⟨maskIdx (coveredAny badLists msg.data) 0 msg.data⟩

/-- A well-formed pattern word: nonempty and made of lowercase ASCII letters.
Every entry of `BAD_WORDS` satisfies this. -/
def goodWord (w : List Char) : Bool :=
  !w.isEmpty && w.all (fun c => 97 ≤ c.toNat && c.toNat ≤ 122)

/-- Case-insensitive equality of two words. -/
def ciListEq : List Char → List Char → Bool
  | [], [] => true
  | c :: cs, d :: ds => ciEq c d && ciListEq cs ds
  | _, _ => false

/-! ### Basic facts about case folding and word characters -/

theorem ciEq_refl (c : Char) : ciEq c c = true := by simp [ciEq]

theorem ciEq_symm {c d : Char} (h : ciEq c d = true) : ciEq d c = true := by
  simp only [ciEq, beq_iff_eq] at h ⊢; omega

theorem ciEq_trans {c d e : Char} (h1 : ciEq c d = true) (h2 : ciEq d e = true) :
    ciEq c e = true := by
  simp only [ciEq, beq_iff_eq] at h1 h2 ⊢; omega

theorem isWordChar_of_ciEq {c d : Char} (h1 : 97 ≤ c.toNat) (h2 : c.toNat ≤ 122)
    (h : ciEq c d = true) : isWordChar d = true := by
  simp only [ciEq, lowerNat, beq_iff_eq] at h
  simp only [isWordChar, Bool.or_eq_true, Bool.and_eq_true, decide_eq_true_eq, beq_iff_eq]
  split at h <;> split at h <;> omega

theorem star_not_wordChar : isWordChar '*' = false := by decide

/-! ### Facts about `ciStarts` -/

theorem ciStarts_length {w t : List Char} (h : ciStarts w t = true) : w.length ≤ t.length := by
  induction w generalizing t with
  | nil => simp
  | cons c cs ih =>
    cases t with
    | nil => simp [ciStarts] at h
    | cons d ds =>
      simp only [ciStarts, Bool.and_eq_true] at h
      simpa using Nat.succ_le_succ (ih h.2)

theorem ciStarts_idx {w t : List Char} (h : ciStarts w t = true) :
    ∀ k, k < w.length → ∃ c d, w[k]? = some c ∧ t[k]? = some d ∧ ciEq c d = true := by
  induction w generalizing t with
  | nil => intro k hk; simp at hk
  | cons c cs ih =>
    cases t with
    | nil => simp [ciStarts] at h
    | cons d ds =>
      simp only [ciStarts, Bool.and_eq_true] at h
      intro k hk
      cases k with
      | zero => exact ⟨c, d, by simp, by simp, h.1⟩
      | succ k =>
        obtain ⟨c', d', h1, h2, h3⟩ := ih h.2 k (by simpa using hk)
        exact ⟨c', d', by simpa using h1, by simpa using h2, h3⟩

theorem ciStarts_congr {w t₁ t₂ : List Char} (h : ∀ k, k < w.length → t₁[k]? = t₂[k]?) :
    ciStarts w t₁ = ciStarts w t₂ := by
  induction w generalizing t₁ t₂ with
  | nil => rfl
  | cons c cs ih =>
    cases t₁ with
    | nil =>
      cases t₂ with
      | nil => rfl
      | cons e es => have h0 := h 0 (by simp); simp at h0
    | cons d ds =>
      cases t₂ with
      | nil => have h0 := h 0 (by simp); simp at h0
      | cons e es =>
        have h0 := h 0 (by simp)
        simp only [List.getElem?_cons_zero, Option.some.injEq] at h0
        subst h0
        simp only [ciStarts]
        congr 1
        exact ih (fun k hk => by simpa using h (k + 1) (by simpa using hk))

theorem ciListEq_of_starts {w v t : List Char} (hlen : w.length = v.length)
    (h1 : ciStarts w t = true) (h2 : ciStarts v t = true) : ciListEq w v = true := by
  induction w generalizing v t with
  | nil =>
    cases v with
    | nil => rfl
    | cons d ds => simp at hlen
  | cons c cs ih =>
    cases v with
    | nil => simp at hlen
    | cons d ds =>
      cases t with
      | nil => simp [ciStarts] at h1
      | cons e es =>
        simp only [ciStarts, Bool.and_eq_true] at h1 h2
        simp only [ciListEq, Bool.and_eq_true]
        refine ⟨ciEq_trans h1.1 (ciEq_symm h2.1), ih (by simpa using hlen) h1.2 h2.2⟩

/-! ### Facts about `goodWord`, `headMatch` and `matchAt` -/

theorem goodWord_idx {w : List Char} (hg : goodWord w = true) {k : Nat} (hk : k < w.length) :
    ∃ c, w[k]? = some c ∧ 97 ≤ c.toNat ∧ c.toNat ≤ 122 := by
  simp only [goodWord, Bool.and_eq_true, List.all_eq_true, Bool.and_eq_true,
    decide_eq_true_eq] at hg
  refine ⟨w[k], List.getElem?_eq_getElem hk, ?_⟩
  exact hg.2 w[k] (List.getElem_mem hk)

theorem goodWord_ne_nil {w : List Char} (hg : goodWord w = true) : w ≠ [] := by
  simp only [goodWord, Bool.and_eq_true] at hg
  simpa using hg.1

theorem headMatch_parts {w : List Char} {prev : Option Char} {t : List Char}
    (h : headMatch w prev t = true) :
    w ≠ [] ∧ (optWord prev != optWord t[0]?) = true ∧ ciStarts w t = true ∧
      (optWord t[w.length - 1]? != optWord t[w.length]?) = true := by
  simp only [headMatch, Bool.and_eq_true] at h
  refine ⟨by simpa using h.1.1.1, h.1.1.2, h.1.2, h.2⟩

theorem headMatch_length_le {w : List Char} {prev : Option Char} {t : List Char}
    (h : headMatch w prev t = true) : w.length ≤ t.length :=
  ciStarts_length (headMatch_parts h).2.2.1

theorem matchAt_ne_nil {w : List Char} {prev t i} (hm : matchAt w prev t i = true) : w ≠ [] :=
  (headMatch_parts hm).1

theorem matchAt_span {w : List Char} {prev : Option Char} {t : List Char} {i : Nat}
    (hg : goodWord w = true) (hm : matchAt w prev t i = true) :
    ∀ k, k < w.length → ∃ d, t[i + k]? = some d ∧ isWordChar d = true := by
  obtain ⟨hne, hb1, hci, hb2⟩ := headMatch_parts hm
  intro k hk
  obtain ⟨c, d, hc, hd, hcd⟩ := ciStarts_idx hci k hk
  rw [List.getElem?_drop] at hd
  obtain ⟨c', hc', hlo, hhi⟩ := goodWord_idx hg hk
  rw [hc] at hc'
  obtain rfl : c = c' := by simpa using hc'
  exact ⟨d, hd, isWordChar_of_ciEq hlo hhi hcd⟩

theorem matchAt_before {w : List Char} {prev : Option Char} {t : List Char} {i : Nat}
    (hg : goodWord w = true) (hm : matchAt w prev t i = true) :
    optWord (prevAt prev t i) = false := by
  obtain ⟨hne, hb1, hci, hb2⟩ := headMatch_parts hm
  have hw0 : 0 < w.length := List.length_pos.mpr (goodWord_ne_nil hg)
  obtain ⟨d, hd, hword⟩ := matchAt_span hg hm 0 hw0
  have hd' : t[i]? = some d := by simpa using hd
  have hb1' : (optWord (prevAt prev t i) != optWord t[i]?) = true := by
    simpa [List.getElem?_drop] using hb1
  cases hopt : optWord (prevAt prev t i)
  · rfl
  · rw [hopt, hd'] at hb1'
    simp [optWord, hword] at hb1'

theorem matchAt_after {w : List Char} {prev : Option Char} {t : List Char} {i : Nat}
    (hg : goodWord w = true) (hm : matchAt w prev t i = true) :
    optWord t[i + w.length]? = false := by
  obtain ⟨hne, hb1, hci, hb2⟩ := headMatch_parts hm
  have hw0 : 0 < w.length := List.length_pos.mpr (goodWord_ne_nil hg)
  obtain ⟨d, hd, hword⟩ := matchAt_span hg hm (w.length - 1) (by omega)
  have hb2' : (optWord t[i + (w.length - 1)]? != optWord t[i + w.length]?) = true := by
    simpa [List.getElem?_drop] using hb2
  cases hopt : optWord t[i + w.length]?
  · rfl
  · rw [hopt, hd] at hb2'
    simp [optWord, hword] at hb2'

theorem prevAt_of_pos {prev : Option Char} {t : List Char} {i : Nat} (hi : i ≠ 0) :
    prevAt prev t i = t[i - 1]? := by
  unfold prevAt
  rw [if_neg hi]

theorem matchAt_not_inside {w v : List Char} {prev : Option Char} {t : List Char} {p i : Nat}
    (hgw : goodWord w = true) (hgv : goodWord v = true)
    (hw : matchAt w prev t p = true) (hp : p < i) (hi : i < p + w.length) :
    matchAt v prev t i = false := by
  by_contra h
  rw [Bool.not_eq_false] at h
  have hb := matchAt_before hgv h
  obtain ⟨d, hd, hword⟩ := matchAt_span hgw hw (i - 1 - p) (by omega)
  have he : p + (i - 1 - p) = i - 1 := by omega
  rw [he] at hd
  rw [prevAt_of_pos (by omega), hd] at hb
  rw [optWord, hword] at hb
  exact absurd hb (by simp)

theorem matchAt_no_overlap {w v : List Char} {prev : Option Char} {t : List Char} {p i : Nat}
    (hgw : goodWord w = true) (hgv : goodWord v = true)
    (hw : matchAt w prev t p = true) (hv : matchAt v prev t i = true)
    (h1 : p < i + v.length) (h2 : i < p + w.length) :
    p = i ∧ w.length = v.length ∧ ciListEq w v = true := by
  have hpi : p = i := by
    rcases Nat.lt_trichotomy p i with hlt | heq | hgt
    · exact absurd hv (by rw [matchAt_not_inside hgw hgv hw hlt h2]; simp)
    · exact heq
    · exact absurd hw (by rw [matchAt_not_inside hgv hgw hv hgt h1]; simp)
  subst hpi
  have hlen : w.length = v.length := by
    rcases Nat.lt_trichotomy w.length v.length with hlt | heq | hgt
    · obtain ⟨d, hd, hword⟩ := matchAt_span hgv hv w.length hlt
      have := matchAt_after hgw hw
      rw [hd, optWord, hword] at this
      exact absurd this (by simp)
    · exact heq
    · obtain ⟨d, hd, hword⟩ := matchAt_span hgw hw v.length hgt
      have := matchAt_after hgv hv
      rw [hd, optWord, hword] at this
      exact absurd this (by simp)
  refine ⟨rfl, hlen, ?_⟩
  exact ciListEq_of_starts hlen (headMatch_parts hw).2.2.1 (headMatch_parts hv).2.2.1

/-! ### Shifting `matchAt` and `covWord` along the subject string -/

theorem matchAt_zero {w : List Char} {prev : Option Char} {t : List Char} :
    matchAt w prev t 0 = headMatch w prev t := rfl

theorem matchAt_cons_succ {w : List Char} {prev : Option Char} {c : Char} {cs : List Char}
    {i : Nat} : matchAt w prev (c :: cs) (i + 1) = matchAt w (some c) cs i := by
  cases i with
  | zero => simp [matchAt, prevAt]
  | succ k => simp [matchAt, prevAt]

theorem matchAt_drop {w : List Char} {prev : Option Char} {t : List Char} {k : Nat}
    (hk : k ≠ 0) (i : Nat) :
    matchAt w prev t (k + i) = matchAt w t[k - 1]? (t.drop k) i := by
  unfold matchAt
  rw [List.drop_drop]
  congr 1
  cases i with
  | zero => rw [Nat.add_zero, prevAt_of_pos hk]; rfl
  | succ j =>
    rw [prevAt_of_pos (by omega), prevAt_of_pos (by omega), List.getElem?_drop]
    congr 1

theorem covWord_iff {w : List Char} {prev : Option Char} {t : List Char} {j : Nat} :
    covWord w prev t j = true ↔
      ∃ i, i ≤ j ∧ matchAt w prev t i = true ∧ j < i + w.length := by
  simp only [covWord, List.any_eq_true, List.mem_range, Bool.and_eq_true, decide_eq_true_eq,
    Nat.lt_succ_iff]

theorem headMatch_nil {w : List Char} {prev : Option Char} (hne : w ≠ []) :
    headMatch w prev [] = false := by
  cases w with
  | nil => exact absurd rfl hne
  | cons c cs => simp [headMatch, ciStarts]

theorem covWord_nil {w : List Char} {prev : Option Char} {j : Nat} (hne : w ≠ []) :
    covWord w prev [] j = false := by
  rw [Bool.eq_false_iff]
  intro h
  obtain ⟨i, _, hmi, _⟩ := covWord_iff.mp h
  rw [matchAt, List.drop_nil, headMatch_nil hne] at hmi
  exact absurd hmi (by simp)

theorem covWord_cons {w : List Char} {prev : Option Char} {c : Char} {cs : List Char} {j : Nat}
    (hm : headMatch w prev (c :: cs) = false) :
    covWord w prev (c :: cs) (j + 1) = covWord w (some c) cs j := by
  rw [Bool.eq_iff_iff, covWord_iff, covWord_iff]
  constructor
  · rintro ⟨i, hij, hmi, hcov⟩
    cases i with
    | zero => rw [matchAt_zero, hm] at hmi; exact absurd hmi (by simp)
    | succ i =>
      rw [matchAt_cons_succ] at hmi
      exact ⟨i, by omega, hmi, by omega⟩
  · rintro ⟨i, hij, hmi, hcov⟩
    exact ⟨i + 1, by omega, by rw [matchAt_cons_succ]; exact hmi, by omega⟩

theorem covWord_jump {w : List Char} {prev : Option Char} {t : List Char}
    (hg : goodWord w = true) (hm : headMatch w prev t = true) (j : Nat) :
    covWord w prev t (w.length + j) = covWord w t[w.length - 1]? (t.drop w.length) j := by
  have hL : 0 < w.length := List.length_pos.mpr (goodWord_ne_nil hg)
  rw [Bool.eq_iff_iff, covWord_iff, covWord_iff]
  constructor
  · rintro ⟨i, hij, hmi, hcov⟩
    by_cases hiL : i < w.length
    · rcases Nat.eq_zero_or_pos i with rfl | hpos
      · omega
      · have hz : matchAt w prev t 0 = true := by rw [matchAt_zero]; exact hm
        have := matchAt_not_inside hg hg hz hpos (by omega)
        rw [this] at hmi
        exact absurd hmi (by simp)
    · push_neg at hiL
      refine ⟨i - w.length, by omega, ?_, by omega⟩
      have h2 := @matchAt_drop w prev t w.length (by omega) (i - w.length)
      rw [← h2, show w.length + (i - w.length) = i from by omega]
      exact hmi
  · rintro ⟨i, hij, hmi, hcov⟩
    refine ⟨w.length + i, by omega, ?_, by omega⟩
    rw [matchAt_drop (by omega) i]
    exact hmi

/-! ### The scan computes exactly the pointwise masking -/

theorem scanGo_length {w : List Char} {fuel : Nat} {prev : Option Char} {t : List Char}
    (h : t.length ≤ fuel) : (scanGo w fuel prev t).length = t.length := by
  induction fuel generalizing prev t with
  | zero =>
    cases t with
    | nil => rfl
    | cons c cs => simp at h
  | succ fuel ih =>
    cases t with
    | nil => rfl
    | cons c cs =>
      simp only [scanGo]
      split
      · next hmtch =>
        have hle := headMatch_length_le hmtch
        have hne : w ≠ [] := (headMatch_parts hmtch).1
        have h1 : 0 < w.length := List.length_pos.mpr hne
        rw [List.length_append, maskOf, List.length_replicate,
          ih (by simp only [List.length_drop]; simp at h ⊢; omega), List.length_drop]
        simp at hle ⊢
        omega
      · next =>
        simp only [List.length_cons]
        rw [ih (by simp at h ⊢; omega)]

theorem scanGo_getElem? {w : List Char} (hg : goodWord w = true) :
    ∀ (fuel : Nat) (prev : Option Char) (t : List Char), t.length ≤ fuel →
      ∀ j, (scanGo w fuel prev t)[j]? =
        if covWord w prev t j = true then some '*' else t[j]? := by
  have hne : w ≠ [] := goodWord_ne_nil hg
  have hL : 0 < w.length := List.length_pos.mpr hne
  intro fuel
  induction fuel with
  | zero =>
    intro prev t ht j
    cases t with
    | nil => rw [covWord_nil hne]; simp [scanGo]
    | cons c cs => simp at ht
  | succ fuel ih =>
    intro prev t ht j
    cases t with
    | nil => rw [covWord_nil hne]; simp [scanGo]
    | cons c cs =>
      simp only [scanGo]
      split
      · next hmtch =>
        have hlen : w.length ≤ (c :: cs).length := headMatch_length_le hmtch
        have hprev : (c :: cs)[w.length - 1]? = some ((c :: cs).getD (w.length - 1) c) := by
          rw [List.getD_eq_getElem?_getD, List.getElem?_eq_getElem (by simp at hlen ⊢; omega)]
          rfl
        by_cases hj : j < w.length
        · rw [List.getElem?_append, maskOf, List.length_replicate]
          rw [if_pos hj, List.getElem?_replicate, if_pos hj]
          have hcov : covWord w prev (c :: cs) j = true := by
            rw [covWord_iff]
            exact ⟨0, by omega, by rw [matchAt_zero]; exact hmtch, by omega⟩
          rw [if_pos hcov]
        · push_neg at hj
          rw [List.getElem?_append, maskOf, List.length_replicate, if_neg (by omega)]
          have hrest : ((c :: cs).drop w.length).length ≤ fuel := by
            simp only [List.length_drop]
            simp at ht ⊢
            omega
          have hcovj : covWord w prev (c :: cs) j
              = covWord w (some ((c :: cs).getD (w.length - 1) c)) ((c :: cs).drop w.length)
                  (j - w.length) := by
            conv_lhs => rw [show j = w.length + (j - w.length) from by omega]
            rw [covWord_jump hg hmtch, hprev]
          rw [ih (some ((c :: cs).getD (w.length - 1) c)) ((c :: cs).drop w.length) hrest
            (j - w.length)]
          rw [List.getElem?_drop, show w.length + (j - w.length) = j from by omega, hcovj]
      · next hmtch =>
        have hmf : headMatch w prev (c :: cs) = false := by simpa using hmtch
        cases j with
        | zero =>
          have hcov : covWord w prev (c :: cs) 0 = false := by
            rw [Bool.eq_false_iff]
            intro h
            obtain ⟨i, hij, hmi, _⟩ := covWord_iff.mp h
            have hi0 : i = 0 := by omega
            subst hi0
            rw [matchAt_zero, hmf] at hmi
            exact absurd hmi (by simp)
          rw [hcov]
          simp
        | succ j =>
          simp only [List.getElem?_cons_succ]
          rw [ih (some c) cs (by simp at ht ⊢; omega) j, covWord_cons hmf]

/-! ### Pointwise masking -/

theorem maskIdx_length (f : Nat → Bool) (j : Nat) (t : List Char) :
    (maskIdx f j t).length = t.length := by
  induction t generalizing j with
  | nil => rfl
  | cons c cs ih => simp [maskIdx, ih]

theorem maskIdx_getElem? (f : Nat → Bool) (j : Nat) (t : List Char) (k : Nat) :
    (maskIdx f j t)[k]? = (t[k]?).map (fun c => if f (j + k) then '*' else c) := by
  induction t generalizing j k with
  | nil => simp [maskIdx]
  | cons c cs ih =>
    cases k with
    | zero => simp [maskIdx]
    | succ k =>
      simp only [maskIdx, List.getElem?_cons_succ, ih (j + 1) k]
      rw [show j + 1 + k = j + (k + 1) from by omega]

theorem maskIdx_maskIdx (f g : Nat → Bool) (j : Nat) (t : List Char) :
    maskIdx g j (maskIdx f j t) = maskIdx (fun k => f k || g k) j t := by
  induction t generalizing j with
  | nil => rfl
  | cons c cs ih =>
    simp only [maskIdx, ih]
    congr 1
    by_cases hf : f j = true <;> by_cases hg : g j = true <;> simp [hf, hg]

theorem maskIdx_congr {f g : Nat → Bool} (h : ∀ k, f k = g k) (j : Nat) (t : List Char) :
    maskIdx f j t = maskIdx g j t := by
  induction t generalizing j with
  | nil => rfl
  | cons c cs ih => simp [maskIdx, h, ih]

theorem maskIdx_of_false {f : Nat → Bool} (h : ∀ k, f k = false) (j : Nat) (t : List Char) :
    maskIdx f j t = t := by
  induction t generalizing j with
  | nil => rfl
  | cons c cs ih => simp [maskIdx, h, ih]

theorem subWord_eq_maskIdx {w t : List Char} (hg : goodWord w = true) :
    subWord w t = maskIdx (covWord w none t) 0 t := by
  apply List.ext_getElem?
  intro j
  rw [subWord, scanGo_getElem? hg t.length none t (le_refl _) j, maskIdx_getElem?]
  by_cases h : covWord w none t j = true
  · rw [if_pos h]
    obtain ⟨i, hij, hmi, hcov⟩ := covWord_iff.mp h
    obtain ⟨d, hd, _⟩ := matchAt_span hg hmi (j - i) (by omega)
    rw [show i + (j - i) = j from by omega] at hd
    rw [hd]
    simp [h]
  · rw [if_neg h]
    rw [Bool.not_eq_true] at h
    cases ht : t[j]? <;> simp [h, ht]

/-! ### Matching is invariant under masking foreign words -/

theorem coveredAny_iff {ws : List (List Char)} {s : List Char} {j : Nat} :
    coveredAny ws s j = true ↔
      ∃ w, w ∈ ws ∧ ∃ p, p ≤ j ∧ matchAt w none s p = true ∧ j < p + w.length := by
  simp only [coveredAny, List.any_eq_true]
  constructor
  · rintro ⟨w, hw, hcw⟩
    exact ⟨w, hw, covWord_iff.mp hcw⟩
  · rintro ⟨w, hw, h⟩
    exact ⟨w, hw, covWord_iff.mpr h⟩

theorem coveredAny_append (ws₁ ws₂ : List (List Char)) (t : List Char) (j : Nat) :
    coveredAny (ws₁ ++ ws₂) t j = (coveredAny ws₁ t j || coveredAny ws₂ t j) := by
  simp [coveredAny, List.any_append]

theorem maskIdx_covered_star {ws : List (List Char)} {s : List Char} {j : Nat}
    (hg : ∀ w ∈ ws, goodWord w = true) (hc : coveredAny ws s j = true) :
    ∃ d, s[j]? = some d ∧ isWordChar d = true ∧
      (maskIdx (coveredAny ws s) 0 s)[j]? = some '*' := by
  obtain ⟨w, hw, p, hpj, hmp, hcov⟩ := coveredAny_iff.mp hc
  obtain ⟨d, hd, hword⟩ := matchAt_span (hg w hw) hmp (j - p) (by omega)
  rw [show p + (j - p) = j from by omega] at hd
  refine ⟨d, hd, hword, ?_⟩
  rw [maskIdx_getElem?, Nat.zero_add, hd]
  simp [hc]

theorem maskIdx_uncovered {ws : List (List Char)} {s : List Char} {j : Nat}
    (hc : coveredAny ws s j = false) :
    (maskIdx (coveredAny ws s) 0 s)[j]? = s[j]? := by
  rw [maskIdx_getElem?, Nat.zero_add, hc]
  cases s[j]? <;> simp

theorem wordChar_uncovered {ws : List (List Char)} {s : List Char} {j : Nat} {d : Char}
    (hg : ∀ w ∈ ws, goodWord w = true)
    (hdm : (maskIdx (coveredAny ws s) 0 s)[j]? = some d) (hword : isWordChar d = true) :
    coveredAny ws s j = false := by
  cases hc : coveredAny ws s j
  · rfl
  · obtain ⟨d', _, _, hstar⟩ := maskIdx_covered_star hg hc
    rw [hdm] at hstar
    obtain rfl : d = '*' := by simpa using hstar
    rw [star_not_wordChar] at hword
    exact absurd hword (by simp)

theorem matchAt_congr {v t₁ t₂ : List Char} {i : Nat}
    (hspan : ∀ k, k ≤ v.length → t₁[i + k]? = t₂[i + k]?)
    (hprev : t₁[i - 1]? = t₂[i - 1]?) :
    matchAt v none t₁ i = matchAt v none t₂ i := by
  have h1 : prevAt none t₁ i = prevAt none t₂ i := by
    unfold prevAt
    split
    · rfl
    · exact hprev
  have h2 : ciStarts v (t₁.drop i) = ciStarts v (t₂.drop i) := by
    refine ciStarts_congr ?_
    intro k hk
    rw [List.getElem?_drop, List.getElem?_drop]
    exact hspan k (by omega)
  unfold matchAt headMatch
  rw [h1, h2]
  rw [List.getElem?_drop, List.getElem?_drop, List.getElem?_drop, List.getElem?_drop,
    List.getElem?_drop, List.getElem?_drop]
  rw [hspan 0 (by omega), hspan (v.length - 1) (by omega), hspan v.length (le_refl _)]

theorem matchAt_mask_imp {v : List Char} {ws : List (List Char)} {s : List Char} {i : Nat}
    (hgv : goodWord v = true) (hgws : ∀ w ∈ ws, goodWord w = true)
    (hmm : matchAt v none (maskIdx (coveredAny ws s) 0 s) i = true) :
    matchAt v none s i = true := by
  set m := maskIdx (coveredAny ws s) 0 s with hmdef
  have hlen : m.length = s.length := maskIdx_length _ _ _
  have hvlen : 0 < v.length := List.length_pos.mpr (goodWord_ne_nil hgv)
  have hspan_f : ∀ k, k < v.length → coveredAny ws s (i + k) = false := by
    intro k hk
    obtain ⟨d, hd, hword⟩ := matchAt_span hgv hmm k hk
    exact wordChar_uncovered hgws hd hword
  have hspan : ∀ k, k ≤ v.length → m[i + k]? = s[i + k]? := by
    intro k hk
    rcases Nat.lt_or_ge k v.length with hlt | hge
    · exact maskIdx_uncovered (hspan_f k hlt)
    · obtain rfl : k = v.length := by omega
      rcases Nat.lt_or_ge (i + v.length) s.length with hin | hout
      · refine maskIdx_uncovered ?_
        cases hc : coveredAny ws s (i + v.length)
        · rfl
        · exfalso
          obtain ⟨w, hwmem, p, hp1, hmp, hp2⟩ := coveredAny_iff.mp hc
          rcases Nat.lt_or_ge p (i + v.length) with hplt | hpge
          · have hcov1 : coveredAny ws s (i + v.length - 1) = true :=
              coveredAny_iff.mpr ⟨w, hwmem, p, by omega, hmp, by omega⟩
            have hf := hspan_f (v.length - 1) (by omega)
            rw [show i + (v.length - 1) = i + v.length - 1 from by omega] at hf
            rw [hf] at hcov1
            exact absurd hcov1 (by simp)
          · obtain rfl : p = i + v.length := by omega
            have hb := matchAt_before (hgws w hwmem) hmp
            rw [prevAt_of_pos (by omega)] at hb
            obtain ⟨d, hd, hword⟩ := matchAt_span hgv hmm (v.length - 1) (by omega)
            have hu := maskIdx_uncovered (hspan_f (v.length - 1) (by omega))
            rw [← hmdef] at hu
            rw [hu] at hd
            rw [show i + v.length - 1 = i + (v.length - 1) from by omega, hd, optWord, hword] at hb
            exact absurd hb (by simp)
      · rw [List.getElem?_eq_none (by omega : s.length ≤ i + v.length),
          List.getElem?_eq_none (by omega : m.length ≤ i + v.length)]
  have hprev : m[i - 1]? = s[i - 1]? := by
    rcases Nat.eq_zero_or_pos i with rfl | hip
    · simpa using hspan 0 (by omega)
    · refine maskIdx_uncovered ?_
      cases hc : coveredAny ws s (i - 1)
      · rfl
      · exfalso
        obtain ⟨w, hwmem, p, hp1, hmp, hp2⟩ := coveredAny_iff.mp hc
        rcases Nat.lt_or_ge i (p + w.length) with hilt | hige
        · have hci : coveredAny ws s i = true :=
            coveredAny_iff.mpr ⟨w, hwmem, p, by omega, hmp, hilt⟩
          have h0 := hspan_f 0 (by omega)
          rw [Nat.add_zero] at h0
          rw [h0] at hci
          exact absurd hci (by simp)
        · have hpe : p + w.length = i := by omega
          have ha := matchAt_after (hgws w hwmem) hmp
          rw [hpe] at ha
          obtain ⟨d, hd, hword⟩ := matchAt_span hgv hmm 0 (by omega)
          have hu := maskIdx_uncovered (hspan_f 0 (by omega))
          rw [← hmdef] at hu
          rw [hu] at hd
          rw [Nat.add_zero] at hd
          rw [hd, optWord, hword] at ha
          exact absurd ha (by simp)
  rw [← matchAt_congr hspan hprev]
  exact hmm

theorem matchAt_orig_imp {v : List Char} {ws : List (List Char)} {s : List Char} {i : Nat}
    (hgv : goodWord v = true) (hgws : ∀ w ∈ ws, goodWord w = true)
    (hdis : ∀ w ∈ ws, ciListEq w v = false)
    (hms : matchAt v none s i = true) :
    matchAt v none (maskIdx (coveredAny ws s) 0 s) i = true := by
  set m := maskIdx (coveredAny ws s) 0 s with hmdef
  have hlen : m.length = s.length := maskIdx_length _ _ _
  have hvlen : 0 < v.length := List.length_pos.mpr (goodWord_ne_nil hgv)
  have hspan_f : ∀ k, k < v.length → coveredAny ws s (i + k) = false := by
    intro k hk
    cases hc : coveredAny ws s (i + k)
    · rfl
    · exfalso
      obtain ⟨w, hwmem, p, hp1, hmp, hp2⟩ := coveredAny_iff.mp hc
      have hno := matchAt_no_overlap (hgws w hwmem) hgv hmp hms (by omega) (by omega)
      have := hno.2.2
      rw [hdis w hwmem] at this
      exact absurd this (by simp)
  have hspan : ∀ k, k ≤ v.length → m[i + k]? = s[i + k]? := by
    intro k hk
    rcases Nat.lt_or_ge k v.length with hlt | hge
    · exact maskIdx_uncovered (hspan_f k hlt)
    · obtain rfl : k = v.length := by omega
      rcases Nat.lt_or_ge (i + v.length) s.length with hin | hout
      · refine maskIdx_uncovered ?_
        cases hc : coveredAny ws s (i + v.length)
        · rfl
        · exfalso
          obtain ⟨w, hwmem, p, hp1, hmp, hp2⟩ := coveredAny_iff.mp hc
          rcases Nat.lt_or_ge p (i + v.length) with hplt | hpge
          · have hno := matchAt_no_overlap (hgws w hwmem) hgv hmp hms (by omega) (by omega)
            have := hno.2.2
            rw [hdis w hwmem] at this
            exact absurd this (by simp)
          · obtain rfl : p = i + v.length := by omega
            have hb := matchAt_before (hgws w hwmem) hmp
            rw [prevAt_of_pos (by omega)] at hb
            obtain ⟨d, hd, hword⟩ := matchAt_span hgv hms (v.length - 1) (by omega)
            rw [show i + v.length - 1 = i + (v.length - 1) from by omega, hd, optWord, hword] at hb
            exact absurd hb (by simp)
      · rw [List.getElem?_eq_none (by omega : s.length ≤ i + v.length),
          List.getElem?_eq_none (by omega : m.length ≤ i + v.length)]
  have hprev : m[i - 1]? = s[i - 1]? := by
    rcases Nat.eq_zero_or_pos i with rfl | hip
    · simpa using hspan 0 (by omega)
    · refine maskIdx_uncovered ?_
      cases hc : coveredAny ws s (i - 1)
      · rfl
      · exfalso
        obtain ⟨w, hwmem, p, hp1, hmp, hp2⟩ := coveredAny_iff.mp hc
        rcases Nat.lt_or_ge i (p + w.length) with hilt | hige
        · have hno := matchAt_no_overlap (hgws w hwmem) hgv hmp hms (by omega) hilt
          have := hno.2.2
          rw [hdis w hwmem] at this
          exact absurd this (by simp)
        · have hpe : p + w.length = i := by omega
          have ha := matchAt_after (hgws w hwmem) hmp
          rw [hpe] at ha
          obtain ⟨d, hd, hword⟩ := matchAt_span hgv hms 0 (by omega)
          rw [Nat.add_zero] at hd
          rw [hd, optWord, hword] at ha
          exact absurd ha (by simp)
  rw [matchAt_congr hspan hprev]
  exact hms

theorem covWord_maskIdx_eq {v : List Char} {ws : List (List Char)} {s : List Char}
    (hgv : goodWord v = true) (hgws : ∀ w ∈ ws, goodWord w = true)
    (hdis : ∀ w ∈ ws, ciListEq w v = false) (j : Nat) :
    covWord v none (maskIdx (coveredAny ws s) 0 s) j = covWord v none s j := by
  rw [Bool.eq_iff_iff, covWord_iff, covWord_iff]
  constructor
  · rintro ⟨p, h1, h2, h3⟩
    exact ⟨p, h1, matchAt_mask_imp hgv hgws h2, h3⟩
  · rintro ⟨p, h1, h2, h3⟩
    exact ⟨p, h1, matchAt_orig_imp hgv hgws hdis h2, h3⟩

/-! ### The full filter equals pointwise masking against the original input -/

theorem foldl_subWord_eq (s : List Char) :
    ∀ (rest P : List (List Char)),
      (∀ w ∈ P ++ rest, goodWord w = true) →
      List.Pairwise (fun v w => ciListEq v w = false) (P ++ rest) →
      rest.foldl (fun acc w => subWord w acc) (maskIdx (coveredAny P s) 0 s)
        = maskIdx (coveredAny (P ++ rest) s) 0 s := by
  intro rest
  induction rest with
  | nil =>
    intro P _ _
    simp
  | cons w rest ih =>
    intro P hgood hpair
    have hgw : goodWord w = true := hgood w (by simp)
    have hgP : ∀ u ∈ P, goodWord u = true := fun u hu => hgood u (by simp [hu])
    have hdis : ∀ u ∈ P, ciListEq u w = false := by
      intro u hu
      exact (List.pairwise_append.mp hpair).2.2 u hu w (by simp)
    simp only [List.foldl_cons]
    have hstep : subWord w (maskIdx (coveredAny P s) 0 s)
        = maskIdx (coveredAny (P ++ [w]) s) 0 s := by
      rw [subWord_eq_maskIdx hgw]
      rw [maskIdx_congr (covWord_maskIdx_eq hgw hgP hdis) 0 _]
      rw [maskIdx_maskIdx]
      refine maskIdx_congr ?_ 0 s
      intro k
      rw [coveredAny_append]
      simp [coveredAny]
    rw [hstep]
    have hres := ih (P ++ [w]) (by simpa using hgood) (by simpa using hpair)
    simpa using hres

theorem foldl_censorWord_data (ws : List String) (s : String) :
    (ws.foldl censorWord s).data
      = (ws.map String.data).foldl (fun acc w => subWord w acc) s.data := by
  induction ws generalizing s with
  | nil => rfl
  | cons w ws ih =>
    simp only [List.foldl_cons, List.map_cons]
    rw [ih]
    rfl

theorem badLists_good : ∀ w ∈ badLists, goodWord w = true := by decide

theorem badLists_pairwise :
    List.Pairwise (fun v w => ciListEq v w = false) badLists := by decide

theorem censor_data_eq (msg : String) :
    (censor_message msg).data = maskIdx (coveredAny badLists msg.data) 0 msg.data := by
  rw [censor_message, foldl_censorWord_data]
  have h0 : msg.data = maskIdx (coveredAny [] msg.data) 0 msg.data :=
    (maskIdx_of_false (fun k => by simp [coveredAny]) 0 _).symm
  conv_lhs => rw [h0]
  exact foldl_subWord_eq msg.data badLists [] badLists_good badLists_pairwise

/-! ### Whitespace characters -/

/-- `msg` is empty or consists only of whitespace characters. -/
def allWhitespace (s : String) : Bool := s.data.all (fun c => c.isWhitespace)

theorem wordChar_not_whitespace {c : Char} (h : isWordChar c = true) :
    c.isWhitespace = false := by
  cases hw : c.isWhitespace
  · rfl
  · exfalso
    simp only [Char.isWhitespace, Bool.or_eq_true, decide_eq_true_eq] at hw
    rcases hw with ((rfl | rfl) | rfl) | rfl <;> simp [isWordChar] at h

/-! ### Claims about the content filter -/

/-- Claim C3: for every input string and every term of the disallowed-term
list, `censor_message` replaces every whole-word occurrence of that term
(matched case-insensitively with word-boundary semantics on both sides) by a
run of mask characters of the same length as the matched term (the output has
the input's length and carries `'*'` throughout the matched span), leaves
every position not inside a whole-word occurrence of a disallowed term — in
particular every occurrence embedded inside a larger word — unchanged, and
returns empty or whitespace-only input unchanged.  The filter is a total
function with no failure path. -/
theorem claim_C3 (msg w : String) (i j k : Nat)
    (hw : w ∈ BAD_WORDS)
    (hm : matchAt w.data none msg.data i = true)
    (hk : k < w.data.length)
    (hj : coveredAny badLists msg.data j = false) :
    (censor_message msg).data.length = msg.data.length
    ∧ (censor_message msg).data[i + k]? = some '*'
    ∧ (censor_message msg).data[j]? = msg.data[j]?
    ∧ (allWhitespace msg = true → censor_message msg = msg) := by
  have hwb : w.data ∈ badLists := List.mem_map_of_mem String.data hw
  have hgw := badLists_good w.data hwb
  refine ⟨?_, ?_, ?_, ?_⟩
  · rw [censor_data_eq]
    exact maskIdx_length _ _ _
  · rw [censor_data_eq]
    have hcov : coveredAny badLists msg.data (i + k) = true :=
      coveredAny_iff.mpr ⟨w.data, hwb, i, by omega, hm, by omega⟩
    obtain ⟨d, _, _, hstar⟩ := maskIdx_covered_star badLists_good hcov
    exact hstar
  · rw [censor_data_eq]
    exact maskIdx_uncovered hj
  · intro hws
    apply String.ext
    rw [censor_data_eq]
    refine maskIdx_of_false ?_ 0 _
    intro p
    cases hc : coveredAny badLists msg.data p
    · rfl
    · exfalso
      obtain ⟨u, hu, q, hq1, hmq, hq2⟩ := coveredAny_iff.mp hc
      have hgu := badLists_good u hu
      have hLu : 0 < u.length := List.length_pos.mpr (goodWord_ne_nil hgu)
      obtain ⟨d, hd, hword⟩ := matchAt_span hgu hmq 0 hLu
      rw [Nat.add_zero] at hd
      simp only [allWhitespace, List.all_eq_true] at hws
      have hdm : d ∈ msg.data := List.getElem?_mem hd
      have hwsd := hws d hdm
      rw [wordChar_not_whitespace hword] at hwsd
      exact absurd hwsd (by simp)

theorem claim_C3_witness :
    "fuck" ∈ BAD_WORDS
    ∧ matchAt "fuck".data none "You fuck classic".data 4 = true
    ∧ 0 < "fuck".data.length
    ∧ coveredAny badLists "You fuck classic".data 9 = false
    ∧ ((censor_message "You fuck classic").data.length = "You fuck classic".data.length
       ∧ (censor_message "You fuck classic").data[4 + 0]? = some '*'
       ∧ (censor_message "You fuck classic").data[9]? = "You fuck classic".data[9]?
       ∧ (allWhitespace "You fuck classic" = true
          → censor_message "You fuck classic" = "You fuck classic")) :=
  ⟨by decide, by decide, by decide, by decide,
   claim_C3 "You fuck classic" "fuck" 4 9 0 (by decide) (by decide) (by decide) (by decide)⟩

/-- Claim C7: the sequential per-term replacement performed by
`censor_message` equals the reference semantics `refCensor` in which every
disallowed term is matched against the unmodified original input and all
matched spans are masked; in particular a replacement made for one term never
introduces a new whole-word match for a later term (list-order shielding of
overlapping terms is vacuous as whole-word matches of distinct all-letter
terms can never overlap). -/
theorem claim_C7 (msg : String) : censor_message msg = refCensor msg :=
  String.ext (censor_data_eq msg)

/-- Claim C10: the content filter is idempotent — applying `censor_message`
to its own output returns that output unchanged, because masked runs of
asterisks never produce a whole-word match of a disallowed term on a second
pass. -/
theorem claim_C10 (msg : String) :
    censor_message (censor_message msg) = censor_message msg := by
  apply String.ext
  rw [censor_data_eq (censor_message msg)]
  have hnone : ∀ p, coveredAny badLists (censor_message msg).data p = false := by
    intro p
    cases hc : coveredAny badLists (censor_message msg).data p
    · rfl
    · exfalso
      obtain ⟨w, hw, q, hq1, hmq, hq2⟩ := coveredAny_iff.mp hc
      have hgw := badLists_good w hw
      have hLw : 0 < w.length := List.length_pos.mpr (goodWord_ne_nil hgw)
      rw [censor_data_eq msg] at hmq
      have hms : matchAt w none msg.data q = true := matchAt_mask_imp hgw badLists_good hmq
      have hcovq : coveredAny badLists msg.data q = true :=
        coveredAny_iff.mpr ⟨w, hw, q, le_refl _, hms, by omega⟩
      obtain ⟨d, hd, hword⟩ := matchAt_span hgw hmq 0 hLw
      rw [Nat.add_zero] at hd
      obtain ⟨d', _, _, hstar⟩ := maskIdx_covered_star badLists_good hcovq
      rw [hd] at hstar
      obtain rfl : d = '*' := by simpa using hstar
      rw [star_not_wordChar] at hword
      exact absurd hword (by simp)
  rw [maskIdx_of_false hnone]

/-! ### Server state: configuration, data model, dictionary operations -/

/-- `HISTORY_RETENTION_SECONDS = 2 * 60 * 60`. -/
def HISTORY_RETENTION_SECONDS : Int := 2 * 60 * 60

/-- `PURGE_INTERVAL_SECONDS = 5 * 60` (not referenced by the purge logic
itself, only by the sleep between cycles). -/
def PURGE_INTERVAL_SECONDS : Int := 5 * 60

/-- `PERSISTENCE_TIMEOUT_SECONDS = 60`. -/
def PERSISTENCE_TIMEOUT_SECONDS : Int := 60

/-- One entry of `chat_history`: `{'alias': ..., 'msg': ..., 'timestamp': ...}`.
Timestamps (`time.time()`) are modelled as integers.  The `'alias'` key is
called `alias_` because `alias` is a reserved word here. -/
structure MessageRecord where
  alias_ : String
  msg : String
  timestamp : Int
deriving DecidableEq

/-- Python dict lookup `d.get(k)`, on an association-list model of a dict. -/
def lookupD {α : Type} (m : List (String × α)) (k : String) : Option α :=
  (m.find? (fun p => p.1 == k)).map (fun p => p.2)

/-- Python dict assignment `d[k] = v`: replace the value of an existing key
in place, else append a new entry.  (Keys are unique in every reachable
state, so replacing the first occurrence models the dict exactly.) -/
def insertD {α : Type} : List (String × α) → String → α → List (String × α)
  | [], k, v => [(k, v)]
  | p :: m, k, v => if p.1 = k then (k, v) :: m else p :: insertD m k v

/-- Python dict deletion `del d[k]` / removal part of `d.pop(k, dflt)`. -/
def eraseD {α : Type} (m : List (String × α)) (k : String) : List (String × α) :=
  m.filter (fun p => p.1 != k)

/-- The global mutable state of the server: `user_aliases`,
`current_anon_id`, `temporary_sessions`, `typing_users`, `chat_history`.
The Python set `typing_users` is a duplicate-free list. -/
structure ServerState where
  user_aliases : List (String × String)
  current_anon_id : Nat
  temporary_sessions : List (String × Int)
  typing_users : List String
  chat_history : List MessageRecord
deriving DecidableEq

/-- The process starts with empty structures and `current_anon_id = 0`. -/
def initState : ServerState := ⟨[], 0, [], [], []⟩

/-- Transport emissions issued by the handlers (`emit` / `socketio.emit`).
`set_alias` and `history` go to the requesting client only; `message` with
`excludeSid = some sid` is a broadcast with `include_self=False`. -/
inductive Emit
  | set_alias (target : String) (a : String)
  | history (target : String) (msgs : List (String × String))
  | message (a : String) (msg : String) (excludeSid : Option String)
  | user_count (n : Nat)
  | typists (ts : List String)
deriving DecidableEq

/-- `f"Anon-User-{current_anon_id}"`. -/
def anonAlias (n : Nat) : String := "Anon-User-" ++ toString n

/-! ### The handlers of `app.py` as pure transition functions -/

/-- `get_alias_or_reconnect(sid, provided_alias)`: if the client provided a
truthy alias that has an unexpired entry in `temporary_sessions`, consume
that entry and rebind it; otherwise increment `current_anon_id` and bind a
fresh `Anon-User-<n>` alias. -/
def get_alias_or_reconnect (st : ServerState) (sid : String) (provided : Option String)
    (now : Int) : ServerState × String × Bool :=
  let valid : Option String :=
    match provided with
    | none => none
    | some a =>
      if a ≠ "" then
        match lookupD st.temporary_sessions a with
        | none => none
        | some expiry => if now < expiry then some a else none
      else none
  match valid with
  | some a =>
    ({ st with temporary_sessions := eraseD st.temporary_sessions a,
               user_aliases := insertD st.user_aliases sid a }, a, true)
  | none =>
    let n := st.current_anon_id + 1
    ({ st with current_anon_id := n,
               user_aliases := insertD st.user_aliases sid (anonAlias n) }, anonAlias n, false)

/-- The join / reconnect notice text of `handle_connect`. -/
def joinedMsg (a : String) (isRe : Bool) : String :=
  if isRe then a ++ " reconnected." else a ++ " has joined the chat."

/-- `handle_connect`: assign or reconnect the alias, broadcast user count and
typists, send the alias and the history snapshot to the connecting client,
and broadcast a join notice to everyone else. -/
def handle_connect (st : ServerState) (sid : String) (provided : Option String) (now : Int) :
    ServerState × List Emit :=
  let r := get_alias_or_reconnect st sid provided now
  (r.1,
    [Emit.user_count r.1.user_aliases.length,
     Emit.typists r.1.typing_users,
     Emit.set_alias sid r.2.1,
     Emit.history sid (r.1.chat_history.map (fun m => (m.alias_, m.msg))),
     Emit.message "SERVER" (joinedMsg r.2.1 r.2.2) (some sid)])

/-- `handle_disconnect`: pop the binding (sentinel `'Unknown User'` if
absent), reserve the alias for `PERSISTENCE_TIMEOUT_SECONDS`, drop it from
the typing set (broadcasting typists if that changed), broadcast the user
count and a leave notice. -/
def handle_disconnect (st : ServerState) (sid : String) (now : Int) :
    ServerState × List Emit :=
  let a := (lookupD st.user_aliases sid).getD "Unknown User"
  let ua := eraseD st.user_aliases sid
  let temp :=
    if a ≠ "Unknown User" then
      insertD st.temporary_sessions a (now + PERSISTENCE_TIMEOUT_SECONDS)
    else st.temporary_sessions
  let tr :=
    if a ∈ st.typing_users then
      (st.typing_users.erase a, [Emit.typists (st.typing_users.erase a)])
    else (st.typing_users, ([] : List Emit))
  ({ st with user_aliases := ua, temporary_sessions := temp, typing_users := tr.1 },
    tr.2 ++
      [Emit.user_count ua.length,
       Emit.message "SERVER"
         (a ++ " has temporarily disconnected (timeout: "
            ++ toString PERSISTENCE_TIMEOUT_SECONDS ++ "s).") (some sid)])

/-- The truthiness test `if msg and msg.strip():` for `data.get('msg')`:
`msg` is a present, non-empty string and stripping its whitespace leaves
something (`msg.strip()` is empty exactly when every character is
whitespace). -/
def msgTruthy : Option String → Bool
  | none => false
  | some m => !(m == "") && !(allWhitespace m)

/-- `handle_send_message`: look up the alias (sentinel `'Unknown Anon'`),
clear the typing flag (broadcasting typists if that changed); if the message
is truthy after stripping, censor it, append it to `chat_history` with the
current timestamp and broadcast it to everyone; otherwise do nothing more. -/
def handle_send_message (st : ServerState) (sid : String) (data_msg : Option String)
    (now : Int) : ServerState × List Emit :=
  let a := (lookupD st.user_aliases sid).getD "Unknown Anon"
  let tr :=
    if a ∈ st.typing_users then
      (st.typing_users.erase a, [Emit.typists (st.typing_users.erase a)])
    else (st.typing_users, ([] : List Emit))
  if msgTruthy data_msg then
    let censored := censor_message (data_msg.getD "")
    ({ st with typing_users := tr.1,
               chat_history := st.chat_history ++ [⟨a, censored, now⟩] },
      tr.2 ++ [Emit.message a censored none])
  else
    ({ st with typing_users := tr.1 }, tr.2)

/-- `handle_is_typing`: add the looked-up alias (sentinel `'Unknown Anon'`)
to `typing_users` and broadcast, unless it is already present. -/
def handle_is_typing (st : ServerState) (sid : String) : ServerState × List Emit :=
  let a := (lookupD st.user_aliases sid).getD "Unknown Anon"
  if a ∉ st.typing_users then
    ({ st with typing_users := st.typing_users ++ [a] },
      [Emit.typists (st.typing_users ++ [a])])
  else (st, [])

/-- `handle_not_typing`: remove the looked-up alias from `typing_users` and
broadcast, if it was present. -/
def handle_not_typing (st : ServerState) (sid : String) : ServerState × List Emit :=
  let a := (lookupD st.user_aliases sid).getD "Unknown Anon"
  if a ∈ st.typing_users then
    ({ st with typing_users := st.typing_users.erase a },
      [Emit.typists (st.typing_users.erase a)])
  else (st, [])

/-- The transport events consumed by the coordinator.  Each event carries the
instant at which its handler captures the current time, where it does. -/
inductive Event
  | connect (sid : String) (provided : Option String) (now : Int)
  | disconnect (sid : String) (now : Int)
  | send_message (sid : String) (msg : Option String) (now : Int)
  | is_typing (sid : String)
  | not_typing (sid : String)

/-- Dispatch one transport event to its handler. -/
def step (st : ServerState) (e : Event) : ServerState × List Emit :=
  match e with
  | .connect sid provided now => handle_connect st sid provided now
  | .disconnect sid now => handle_disconnect st sid now
  | .send_message sid msg now => handle_send_message st sid msg now
  | .is_typing sid => handle_is_typing st sid
  | .not_typing sid => handle_not_typing st sid

/-- The state reached from the empty initial state by a sequence of events. -/
def run (evs : List Event) : ServerState :=
  evs.foldl (fun st e => (step st e).1) initState

/-- One cycle of `purge_messages_loop`:
`[msg for msg in chat_history if msg['timestamp'] > cutoff]` with
`cutoff = time.time() - HISTORY_RETENTION_SECONDS`. -/
def purge_messages (now : Int) (history : List MessageRecord) : List MessageRecord :=
  history.filter (fun m => now - HISTORY_RETENTION_SECONDS < m.timestamp)

/-! ### Association-list dictionary lemmas -/

theorem lookupD_nil {α : Type} (k : String) : lookupD ([] : List (String × α)) k = none := rfl

theorem lookupD_cons {α : Type} (p : String × α) (m : List (String × α)) (k : String) :
    lookupD (p :: m) k = if p.1 = k then some p.2 else lookupD m k := by
  by_cases h : p.1 = k
  · simp [lookupD, List.find?, h]
  · have hb : (p.1 == k) = false := by simpa using h
    simp [lookupD, List.find?, hb, h]

theorem lookupD_insertD_self {α : Type} (m : List (String × α)) (k : String) (v : α) :
    lookupD (insertD m k v) k = some v := by
  induction m with
  | nil => simp [insertD, lookupD_cons]
  | cons p m ih =>
    simp only [insertD]
    by_cases h : p.1 = k
    · rw [if_pos h, lookupD_cons]
      simp
    · rw [if_neg h, lookupD_cons, if_neg h, ih]

theorem lookupD_insertD_ne {α : Type} (m : List (String × α)) (k k' : String) (v : α)
    (h : k' ≠ k) : lookupD (insertD m k v) k' = lookupD m k' := by
  induction m with
  | nil =>
    simp only [insertD, lookupD_cons, lookupD_nil]
    rw [if_neg (fun hh => h hh.symm)]
  | cons p m ih =>
    simp only [insertD]
    by_cases hp : p.1 = k
    · rw [if_pos hp, lookupD_cons, lookupD_cons]
      rw [if_neg (fun hh => h hh.symm), if_neg (by rw [hp]; exact fun hh => h hh.symm)]
    · rw [if_neg hp, lookupD_cons, lookupD_cons, ih]

theorem lookupD_eraseD_self {α : Type} (m : List (String × α)) (k : String) :
    lookupD (eraseD m k) k = none := by
  induction m with
  | nil => rfl
  | cons p m ih =>
    simp only [eraseD, List.filter_cons]
    by_cases h : p.1 = k
    · simp only [h, bne_self_eq_false]
      exact ih
    · rw [if_pos (by simpa using h), lookupD_cons, if_neg h]
      exact ih

theorem lookupD_eraseD_ne {α : Type} (m : List (String × α)) (k k' : String) (h : k' ≠ k) :
    lookupD (eraseD m k) k' = lookupD m k' := by
  induction m with
  | nil => rfl
  | cons p m ih =>
    simp only [eraseD, List.filter_cons] at ih ⊢
    by_cases hp : p.1 = k
    · rw [if_neg (by simp [hp])]
      rw [ih, lookupD_cons, if_neg (by rw [hp]; exact fun hh => h hh.symm)]
    · rw [if_pos (by simpa using hp), lookupD_cons, lookupD_cons, ih]

/-! ### Observables of the emission lists -/

/-- No `message` event occurs among the emissions. -/
def noMessageEmit (es : List Emit) : Bool :=
  es.all (fun e => match e with
    | Emit.message _ _ _ => false
    | _ => true)

/-- Every `typists` snapshot among the emissions excludes the alias `a`. -/
def typistsExclude (a : String) (es : List Emit) : Bool :=
  es.all (fun e => match e with
    | Emit.typists ts => !(decide (a ∈ ts))
    | _ => true)

/-- Every emission is a `typists` snapshot (no other client-visible channel
is touched). -/
def onlyTypistsEmits (es : List Emit) : Bool :=
  es.all (fun e => match e with
    | Emit.typists _ => true
    | _ => false)

/-! ### Branch lemmas for `get_alias_or_reconnect` -/

/-- The fresh-alias outcome of `get_alias_or_reconnect` (the `# 2.` branch of
the source). -/
def freshOutcome (st : ServerState) (sid : String) : ServerState × String × Bool :=
  ({ st with current_anon_id := st.current_anon_id + 1,
             user_aliases := insertD st.user_aliases sid (anonAlias (st.current_anon_id + 1)) },
   anonAlias (st.current_anon_id + 1), false)

theorem gar_none (st : ServerState) (sid : String) (now : Int) :
    get_alias_or_reconnect st sid none now = freshOutcome st sid := rfl

theorem gar_consume (st : ServerState) (sid c : String) (now e : Int)
    (hne : c ≠ "") (hl : lookupD st.temporary_sessions c = some e) (hv : now < e) :
    get_alias_or_reconnect st sid (some c) now
      = ({ st with temporary_sessions := eraseD st.temporary_sessions c,
                   user_aliases := insertD st.user_aliases sid c }, c, true) := by
  simp [get_alias_or_reconnect, hne, hl, hv]

theorem gar_expired (st : ServerState) (sid c : String) (now e : Int)
    (hl : lookupD st.temporary_sessions c = some e) (hv : ¬now < e) :
    get_alias_or_reconnect st sid (some c) now = freshOutcome st sid := by
  by_cases hne : c = "" <;> simp [get_alias_or_reconnect, freshOutcome, hne, hl, hv]

theorem gar_absent (st : ServerState) (sid c : String) (now : Int)
    (hl : lookupD st.temporary_sessions c = none) :
    get_alias_or_reconnect st sid (some c) now = freshOutcome st sid := by
  by_cases hne : c = "" <;> simp [get_alias_or_reconnect, freshOutcome, hne, hl]

theorem gar_empty (st : ServerState) (sid : String) (now : Int) :
    get_alias_or_reconnect st sid (some "") now = freshOutcome st sid := by
  simp [get_alias_or_reconnect, freshOutcome]

/-! ### Claims about assignment and reconnection -/

/-- Claim C1: `get_alias_or_reconnect` returns `(claimed_alias, true)` and
deletes the reservation entry exactly when the claimed alias is present,
non-empty and has an unexpired reservation entry (binding it to the caller
and leaving the counter untouched); with no claimed alias, or an expired
entry, it increments the process-wide counter, binds and returns the fresh
alias `Anon-User-<counter>` with `was_reconnect = false`; likewise when the
claimed alias has no reservation entry at all, or is the empty string; and a
second claim of the same alias after consumption yields a freshly generated
alias. -/
theorem claim_C1 (st : ServerState) (sid sid₂ c c₀ : String) (e now now₂ : Int)
    (hc : lookupD st.temporary_sessions c = some e) :
    (c ≠ "" → now < e →
      (get_alias_or_reconnect st sid (some c) now).2 = (c, true)
      ∧ lookupD (get_alias_or_reconnect st sid (some c) now).1.temporary_sessions c = none
      ∧ lookupD (get_alias_or_reconnect st sid (some c) now).1.user_aliases sid = some c
      ∧ (get_alias_or_reconnect st sid (some c) now).1.current_anon_id = st.current_anon_id
      ∧ (get_alias_or_reconnect
            (get_alias_or_reconnect st sid (some c) now).1 sid₂ (some c) now₂).2
          = (anonAlias (st.current_anon_id + 1), false))
    ∧ (e ≤ now →
      (get_alias_or_reconnect st sid (some c) now).2
          = (anonAlias (st.current_anon_id + 1), false)
      ∧ (get_alias_or_reconnect st sid (some c) now).1.current_anon_id
          = st.current_anon_id + 1
      ∧ lookupD (get_alias_or_reconnect st sid (some c) now).1.user_aliases sid
          = some (anonAlias (st.current_anon_id + 1)))
    ∧ ((get_alias_or_reconnect st sid none now).2
          = (anonAlias (st.current_anon_id + 1), false)
      ∧ (get_alias_or_reconnect st sid none now).1.current_anon_id = st.current_anon_id + 1
      ∧ lookupD (get_alias_or_reconnect st sid none now).1.user_aliases sid
          = some (anonAlias (st.current_anon_id + 1)))
    ∧ (lookupD st.temporary_sessions c₀ = none →
      (get_alias_or_reconnect st sid (some c₀) now).2
          = (anonAlias (st.current_anon_id + 1), false)
      ∧ (get_alias_or_reconnect st sid (some c₀) now).1.current_anon_id
          = st.current_anon_id + 1)
    ∧ (get_alias_or_reconnect st sid (some "") now).2
        = (anonAlias (st.current_anon_id + 1), false) := by
  refine ⟨?_, ?_, ?_, ?_, ?_⟩
  · intro hne hv
    rw [gar_consume st sid c now e hne hc hv]
    refine ⟨rfl, lookupD_eraseD_self _ _, lookupD_insertD_self _ _ _, rfl, ?_⟩
    rw [gar_absent _ sid₂ c now₂ (lookupD_eraseD_self _ _)]
    rfl
  · intro hexp
    rw [gar_expired st sid c now e hc (by omega)]
    exact ⟨rfl, rfl, lookupD_insertD_self _ _ _⟩
  · rw [gar_none]
    exact ⟨rfl, rfl, lookupD_insertD_self _ _ _⟩
  · intro h0
    rw [gar_absent st sid c₀ now h0]
    exact ⟨rfl, rfl⟩
  · rw [gar_empty]
    rfl

/-- A concrete state used by the claim C1 witness: `Anon-User-3` is reserved
until instant 100 and the counter stands at 5. -/
def c1State : ServerState := ServerState.mk [] 5 [("Anon-User-3", 100)] [] []

theorem claim_C1_witness :
    lookupD c1State.temporary_sessions "Anon-User-3" = some 100
    ∧ (("Anon-User-3" : String) ≠ "" → (50 : Int) < 100 →
      (get_alias_or_reconnect c1State "s1" (some "Anon-User-3") 50).2 = ("Anon-User-3", true)
      ∧ lookupD (get_alias_or_reconnect c1State
          "s1" (some "Anon-User-3") 50).1.temporary_sessions "Anon-User-3" = none
      ∧ lookupD (get_alias_or_reconnect c1State
          "s1" (some "Anon-User-3") 50).1.user_aliases "s1" = some "Anon-User-3"
      ∧ (get_alias_or_reconnect c1State "s1" (some "Anon-User-3") 50).1.current_anon_id
          = c1State.current_anon_id
      ∧ (get_alias_or_reconnect
            (get_alias_or_reconnect c1State "s1" (some "Anon-User-3") 50).1
            "s2" (some "Anon-User-3") 55).2
          = (anonAlias (c1State.current_anon_id + 1), false))
    ∧ ((100 : Int) ≤ 50 →
      (get_alias_or_reconnect c1State "s1" (some "Anon-User-3") 50).2
          = (anonAlias (c1State.current_anon_id + 1), false)
      ∧ (get_alias_or_reconnect c1State "s1" (some "Anon-User-3") 50).1.current_anon_id
          = c1State.current_anon_id + 1
      ∧ lookupD (get_alias_or_reconnect c1State
          "s1" (some "Anon-User-3") 50).1.user_aliases "s1"
          = some (anonAlias (c1State.current_anon_id + 1)))
    ∧ ((get_alias_or_reconnect c1State "s1" none 50).2
          = (anonAlias (c1State.current_anon_id + 1), false)
      ∧ (get_alias_or_reconnect c1State "s1" none 50).1.current_anon_id
          = c1State.current_anon_id + 1
      ∧ lookupD (get_alias_or_reconnect c1State "s1" none 50).1.user_aliases "s1"
          = some (anonAlias (c1State.current_anon_id + 1)))
    ∧ (lookupD c1State.temporary_sessions "Ghost" = none →
      (get_alias_or_reconnect c1State "s1" (some "Ghost") 50).2
          = (anonAlias (c1State.current_anon_id + 1), false)
      ∧ (get_alias_or_reconnect c1State "s1" (some "Ghost") 50).1.current_anon_id
          = c1State.current_anon_id + 1)
    ∧ (get_alias_or_reconnect c1State "s1" (some "") 50).2
        = (anonAlias (c1State.current_anon_id + 1), false) :=
  ⟨by decide,
   claim_C1 c1State "s1" "s2" "Anon-User-3" "Ghost" 100 50 55 (by decide)⟩

/-- Claim C9: a claim of an alias whose reservation entry has already expired
leaves the whole reservation table — the expired entry included — unchanged,
while the caller receives a freshly generated alias; a call with no claimed
alias also leaves the table unchanged; and a successful claim of a different
alias leaves every other reservation entry unchanged. -/
theorem claim_C9 (st : ServerState) (sid c c' d : String) (e e' now : Int)
    (hc : lookupD st.temporary_sessions c = some e) (hexp : e ≤ now)
    (hc' : lookupD st.temporary_sessions c' = some e') (hval : now < e') (hne : c' ≠ "")
    (hd : d ≠ c') :
    (get_alias_or_reconnect st sid (some c) now).1.temporary_sessions
        = st.temporary_sessions
    ∧ lookupD (get_alias_or_reconnect st sid (some c) now).1.temporary_sessions c = some e
    ∧ (get_alias_or_reconnect st sid (some c) now).2
        = (anonAlias (st.current_anon_id + 1), false)
    ∧ (get_alias_or_reconnect st sid none now).1.temporary_sessions
        = st.temporary_sessions
    ∧ lookupD (get_alias_or_reconnect st sid (some c') now).1.temporary_sessions d
        = lookupD st.temporary_sessions d := by
  have h1 := gar_expired st sid c now e hc (by omega)
  refine ⟨by rw [h1]; rfl, by rw [h1]; exact hc, by rw [h1]; rfl, by rw [gar_none]; rfl, ?_⟩
  rw [gar_consume st sid c' now e' hne hc' hval]
  exact lookupD_eraseD_ne _ _ _ hd

/-- A concrete state used by the claim C9 witness: `Anon-User-1`'s
reservation has lapsed, `Anon-User-2`'s is still valid at instant 50. -/
def c9State : ServerState :=
  ServerState.mk [] 7 [("Anon-User-1", 10), ("Anon-User-2", 100)] [] []

theorem claim_C9_witness :
    lookupD c9State.temporary_sessions "Anon-User-1" = some 10
    ∧ (10 : Int) ≤ 50
    ∧ lookupD c9State.temporary_sessions "Anon-User-2" = some 100
    ∧ (50 : Int) < 100
    ∧ ("Anon-User-2" : String) ≠ ""
    ∧ ("Anon-User-1" : String) ≠ "Anon-User-2"
    ∧ ((get_alias_or_reconnect c9State "s1" (some "Anon-User-1") 50).1.temporary_sessions
        = c9State.temporary_sessions
      ∧ lookupD (get_alias_or_reconnect c9State
          "s1" (some "Anon-User-1") 50).1.temporary_sessions "Anon-User-1" = some 10
      ∧ (get_alias_or_reconnect c9State "s1" (some "Anon-User-1") 50).2
          = (anonAlias (c9State.current_anon_id + 1), false)
      ∧ (get_alias_or_reconnect c9State "s1" none 50).1.temporary_sessions
          = c9State.temporary_sessions
      ∧ lookupD (get_alias_or_reconnect c9State
          "s1" (some "Anon-User-2") 50).1.temporary_sessions "Anon-User-1"
          = lookupD c9State.temporary_sessions "Anon-User-1") :=
  ⟨by decide, by decide, by decide, by decide, by decide, by decide,
   claim_C9 c9State "s1" "Anon-User-1" "Anon-User-2" "Anon-User-1" 10 100 50
     (by decide) (by decide) (by decide) (by decide) (by decide) (by decide)⟩

/-! ### Claims about the history purge -/

/-- Claim C5: a purge evaluated at `now` removes exactly the records with
`timestamp ≤ now - HISTORY_RETENTION_SECONDS` and preserves the relative
order of all survivors (the result is a sublist); given one record at `t0`
and one at `t0 + retention + 1`, a purge at `t0 + retention + 2` removes the
first and keeps the second; and a second purge run immediately after the
first removes zero records. -/
theorem claim_C5 (h : List MessageRecord) (now t0 : Int) (r r₁ r₂ : MessageRecord)
    (h1 : r₁.timestamp = t0) (h2 : r₂.timestamp = t0 + HISTORY_RETENTION_SECONDS + 1) :
    (purge_messages now h).Sublist h
    ∧ (r ∈ purge_messages now h
        ↔ r ∈ h ∧ now - HISTORY_RETENTION_SECONDS < r.timestamp)
    ∧ purge_messages now (purge_messages now h) = purge_messages now h
    ∧ purge_messages (t0 + HISTORY_RETENTION_SECONDS + 2) [r₁, r₂] = [r₂] := by
  refine ⟨List.filter_sublist h, ?_, ?_, ?_⟩
  · simp [purge_messages, List.mem_filter]
  · simp only [purge_messages, List.filter_filter]
    simp
  · simp only [purge_messages, List.filter_cons]
    rw [if_neg (by simp [h1, HISTORY_RETENTION_SECONDS]; omega)]
    rw [if_pos (by simp [h2, HISTORY_RETENTION_SECONDS]; omega)]
    rfl

theorem claim_C5_witness :
    (MessageRecord.mk "a" "hi" 0).timestamp = (0 : Int)
    ∧ (MessageRecord.mk "b" "ho" 7201).timestamp = (0 : Int) + HISTORY_RETENTION_SECONDS + 1
    ∧ ((purge_messages 9000 [MessageRecord.mk "a" "hi" 0]).Sublist
          [MessageRecord.mk "a" "hi" 0]
      ∧ (MessageRecord.mk "c" "he" 8500 ∈ purge_messages 9000 [MessageRecord.mk "a" "hi" 0]
          ↔ MessageRecord.mk "c" "he" 8500 ∈ [MessageRecord.mk "a" "hi" 0]
            ∧ (9000 : Int) - HISTORY_RETENTION_SECONDS
                < (MessageRecord.mk "c" "he" 8500).timestamp)
      ∧ purge_messages 9000 (purge_messages 9000 [MessageRecord.mk "a" "hi" 0])
          = purge_messages 9000 [MessageRecord.mk "a" "hi" 0]
      ∧ purge_messages ((0 : Int) + HISTORY_RETENTION_SECONDS + 2)
          [MessageRecord.mk "a" "hi" 0, MessageRecord.mk "b" "ho" 7201]
          = [MessageRecord.mk "b" "ho" 7201]) :=
  ⟨by decide, by decide,
   claim_C5 [MessageRecord.mk "a" "hi" 0] 9000 0 (MessageRecord.mk "c" "he" 8500)
     (MessageRecord.mk "a" "hi" 0) (MessageRecord.mk "b" "ho" 7201)
     (by decide) (by decide)⟩

/-! ### Claims about message sending and typing -/

/-- Claim C6: for a bound connection, a `send_message` event whose text is
missing, empty or whitespace-only appends nothing to the history store and
emits no `message` broadcast; the presence mapping, reservation table and
counter are unchanged (only the typing snapshot may change); the handler is
total, so no error reaches the client. -/
theorem claim_C6 (st : ServerState) (sid a : String) (m : Option String) (now : Int)
    (hb : lookupD st.user_aliases sid = some a)
    (hm : msgTruthy m = false) :
    (handle_send_message st sid m now).1.chat_history = st.chat_history
    ∧ noMessageEmit (handle_send_message st sid m now).2 = true
    ∧ onlyTypistsEmits (handle_send_message st sid m now).2 = true
    ∧ (handle_send_message st sid m now).1.user_aliases = st.user_aliases
    ∧ (handle_send_message st sid m now).1.temporary_sessions = st.temporary_sessions
    ∧ (handle_send_message st sid m now).1.current_anon_id = st.current_anon_id := by
  rw [handle_send_message]
  simp only [hm, Bool.false_eq_true, if_false]
  by_cases ht : (lookupD st.user_aliases sid).getD "Unknown Anon" ∈ st.typing_users
  · simp [ht, noMessageEmit, onlyTypistsEmits]
  · simp [ht, noMessageEmit, onlyTypistsEmits]

theorem claim_C6_witness :
    lookupD (ServerState.mk [("s1", "Anon-User-1")] 1 [] [] []).user_aliases "s1"
        = some "Anon-User-1"
    ∧ msgTruthy (some "   ") = false
    ∧ ((handle_send_message (ServerState.mk [("s1", "Anon-User-1")] 1 [] [] [])
          "s1" (some "   ") 5).1.chat_history
        = (ServerState.mk [("s1", "Anon-User-1")] 1 [] [] []).chat_history
      ∧ noMessageEmit (handle_send_message (ServerState.mk [("s1", "Anon-User-1")] 1 [] [] [])
          "s1" (some "   ") 5).2 = true
      ∧ onlyTypistsEmits (handle_send_message (ServerState.mk [("s1", "Anon-User-1")] 1 [] [] [])
          "s1" (some "   ") 5).2 = true
      ∧ (handle_send_message (ServerState.mk [("s1", "Anon-User-1")] 1 [] [] [])
          "s1" (some "   ") 5).1.user_aliases
        = (ServerState.mk [("s1", "Anon-User-1")] 1 [] [] []).user_aliases
      ∧ (handle_send_message (ServerState.mk [("s1", "Anon-User-1")] 1 [] [] [])
          "s1" (some "   ") 5).1.temporary_sessions
        = (ServerState.mk [("s1", "Anon-User-1")] 1 [] [] []).temporary_sessions
      ∧ (handle_send_message (ServerState.mk [("s1", "Anon-User-1")] 1 [] [] [])
          "s1" (some "   ") 5).1.current_anon_id
        = (ServerState.mk [("s1", "Anon-User-1")] 1 [] [] []).current_anon_id) :=
  ⟨by decide, by decide,
   claim_C6 (ServerState.mk [("s1", "Anon-User-1")] 1 [] [] []) "s1" "Anon-User-1"
     (some "   ") 5 (by decide) (by decide)⟩

/-- Claim C8: for a bound connection whose alias is currently in the typing
set, handling `send_message` removes the alias from the typing set and every
`typists` snapshot it broadcasts excludes it; a `disconnect` does the same;
an `is_typing` event that does not change membership (the alias is already
typing) triggers no broadcast and no state change; and a `not_typing` event
that does not change membership (here: issued right after the send cleared
the flag) triggers no broadcast and no state change. -/
theorem claim_C8 (st : ServerState) (sid a : String) (m : Option String) (now : Int)
    (hb : lookupD st.user_aliases sid = some a)
    (ht : a ∈ st.typing_users)
    (hnd : st.typing_users.Nodup) :
    (a ∉ (handle_send_message st sid m now).1.typing_users
      ∧ typistsExclude a (handle_send_message st sid m now).2 = true)
    ∧ (a ∉ (handle_disconnect st sid now).1.typing_users
      ∧ typistsExclude a (handle_disconnect st sid now).2 = true)
    ∧ handle_is_typing st sid = (st, [])
    ∧ handle_not_typing (handle_send_message st sid m now).1 sid
        = ((handle_send_message st sid m now).1, []) := by
  have hmem : a ∉ st.typing_users.erase a := hnd.not_mem_erase
  refine ⟨?_, ?_, ?_, ?_⟩
  · rw [handle_send_message]
    simp only [hb, Option.getD_some, if_pos ht]
    by_cases hmsg : msgTruthy m = true
    · simp [hmsg, typistsExclude, hmem]
    · simp [hmsg, typistsExclude, hmem]
  · rw [handle_disconnect]
    simp only [hb, Option.getD_some, if_pos ht]
    simp [typistsExclude, hmem]
  · rw [handle_is_typing]
    simp [hb, ht]
  · rw [handle_not_typing]
    have hua : (handle_send_message st sid m now).1.user_aliases = st.user_aliases := by
      rw [handle_send_message]
      by_cases hmsg : msgTruthy m = true <;> simp [hmsg]
    have hty : (handle_send_message st sid m now).1.typing_users
        = st.typing_users.erase a := by
      rw [handle_send_message]
      simp only [hb, Option.getD_some, if_pos ht]
      by_cases hmsg : msgTruthy m = true <;> simp [hmsg]
    rw [hua, hty, hb]
    simp [hmem]

/-- A concrete state used by the claim C8 witness: `s1` is bound to
`Anon-User-1`, which is currently marked typing. -/
def c8State : ServerState :=
  ServerState.mk [("s1", "Anon-User-1")] 1 [] ["Anon-User-1"] []

theorem claim_C8_witness :
    lookupD c8State.user_aliases "s1" = some "Anon-User-1"
    ∧ "Anon-User-1" ∈ c8State.typing_users
    ∧ c8State.typing_users.Nodup
    ∧ (("Anon-User-1" ∉ (handle_send_message c8State "s1" (some "hello") 5).1.typing_users
      ∧ typistsExclude "Anon-User-1"
          (handle_send_message c8State "s1" (some "hello") 5).2 = true)
      ∧ ("Anon-User-1" ∉ (handle_disconnect c8State "s1" 5).1.typing_users
      ∧ typistsExclude "Anon-User-1" (handle_disconnect c8State "s1" 5).2 = true)
      ∧ handle_is_typing c8State "s1" = (c8State, [])
      ∧ handle_not_typing (handle_send_message c8State "s1" (some "hello") 5).1 "s1"
          = ((handle_send_message c8State "s1" (some "hello") 5).1, [])) :=
  ⟨by decide, by decide, by decide,
   claim_C8 c8State "s1" "Anon-User-1" (some "hello") 5 (by decide) (by decide) (by decide)⟩

/-- Claim C4 fails on the code: an `is_typing` event from a connection
identity with no current binding inserts the sentinel alias `'Unknown Anon'`
into the typing set (and broadcasts it as a typist), so after that event the
typing set contains an alias bound to no live connection.  This theorem
evaluates the code at the failing input: a single `is_typing` event from the
unbound identity `"S1"` in the initial empty state. -/
theorem claim_C4_bug :
    (run [Event.is_typing "S1"]).typing_users = ["Unknown Anon"]
    ∧ (run [Event.is_typing "S1"]).user_aliases = []
    ∧ (handle_is_typing initState "S1").2 = [Emit.typists ["Unknown Anon"]] := by
  refine ⟨rfl, rfl, rfl⟩

/-! ### Injectivity of the generated aliases -/

/-- Value of a decimal digit character. -/
def decValChar (c : Char) : Nat := c.toNat - 48

/-- Decimal value of a digit string (left inverse of `Nat.repr`). -/
def decVal (l : List Char) : Nat := l.foldl (fun a c => 10 * a + decValChar c) 0

theorem digitChar_toNat {m : Nat} (h : m < 10) : (Nat.digitChar m).toNat = 48 + m := by
  interval_cases m <;> decide

theorem decVal_append_singleton (xs : List Char) (c : Char) :
    decVal (xs ++ [c]) = 10 * decVal xs + decValChar c := by
  simp [decVal, List.foldl_append]

theorem toDigitsCore_acc (fuel : Nat) : ∀ (n : Nat) (ds : List Char),
    Nat.toDigitsCore 10 fuel n ds = Nat.toDigitsCore 10 fuel n [] ++ ds := by
  induction fuel with
  | zero => intro n ds; rfl
  | succ fuel ih =>
    intro n ds
    simp only [Nat.toDigitsCore]
    by_cases h : n / 10 = 0
    · simp [h]
    · rw [if_neg h, if_neg h, ih (n / 10) (Nat.digitChar (n % 10) :: ds),
        ih (n / 10) [Nat.digitChar (n % 10)]]
      simp

theorem decVal_toDigitsCore (fuel : Nat) : ∀ n, n < fuel →
    decVal (Nat.toDigitsCore 10 fuel n []) = n := by
  induction fuel with
  | zero => intro n h; omega
  | succ fuel ih =>
    intro n h
    simp only [Nat.toDigitsCore]
    have hm : n % 10 < 10 := Nat.mod_lt n (by omega)
    by_cases h0 : n / 10 = 0
    · rw [if_pos h0]
      have hn10 : n < 10 := by
        by_contra hge
        push_neg at hge
        have h1 : 10 / 10 ≤ n / 10 := Nat.div_le_div_right hge
        simp at h1
        omega
      simp [decVal, decValChar, digitChar_toNat hm]
      omega
    · rw [if_neg h0]
      rw [toDigitsCore_acc fuel (n / 10) [Nat.digitChar (n % 10)]]
      rw [decVal_append_singleton]
      have hlt : n / 10 < fuel := by
        have h1 : n / 10 < n := Nat.div_lt_self (by omega) (by omega)
        omega
      rw [ih (n / 10) hlt]
      rw [decValChar, digitChar_toNat hm]
      omega

theorem natRepr_inj {m n : Nat} (h : Nat.repr m = Nat.repr n) : m = n := by
  have hd : Nat.toDigits 10 m = Nat.toDigits 10 n := by
    have h2 := congrArg String.data h
    simpa [Nat.repr, List.asString] using h2
  have hm : decVal (Nat.toDigits 10 m) = m :=
    decVal_toDigitsCore (m + 1) m (by omega)
  have hn : decVal (Nat.toDigits 10 n) = n :=
    decVal_toDigitsCore (n + 1) n (by omega)
  rw [← hm, ← hn, hd]

theorem anonAlias_inj {m n : Nat} (h : anonAlias m = anonAlias n) : m = n := by
  have hd := congrArg String.data h
  simp only [anonAlias, String.data_append] at hd
  have h2 : (toString m).data = (toString n).data := List.append_cancel_left hd
  exact natRepr_inj (String.ext h2)

theorem anonAlias_ne_unknownUser (k : Nat) : anonAlias k ≠ "Unknown User" := by
  intro h
  have hd := congrArg String.data h
  simp only [anonAlias, String.data_append] at hd
  simp at hd

/-! ### The reachable-state invariant of the presence registry -/

/-- The keys of a dict (the sids of `user_aliases`, the aliases of
`temporary_sessions`). -/
def keysOf {α : Type} (m : List (String × α)) : List String := m.map Prod.fst

/-- The values of the live mapping: the aliases held by live connections. -/
def valuesOf (m : List (String × String)) : List String := m.map Prod.snd

theorem mem_keysOf_of_lookupD {α : Type} {m : List (String × α)} {k : String} {v : α}
    (h : lookupD m k = some v) : k ∈ keysOf m := by
  induction m with
  | nil => simp [lookupD] at h
  | cons p m ih =>
    rw [lookupD_cons] at h
    by_cases hp : p.1 = k
    · simp [keysOf, hp.symm]
    · rw [if_neg hp] at h
      simpa [keysOf] using Or.inr (ih h)

theorem lookupD_mem {α : Type} {m : List (String × α)} {k : String} {v : α}
    (h : lookupD m k = some v) : (k, v) ∈ m := by
  induction m with
  | nil => simp [lookupD] at h
  | cons p m ih =>
    rw [lookupD_cons] at h
    by_cases hp : p.1 = k
    · rw [if_pos hp] at h
      have hv : v = p.2 := by simpa using h.symm
      have hp2 : p = (k, v) := by
        rcases p with ⟨p1, p2⟩
        simp at hp hv
        simp [hp, hv]
      rw [← hp2]
      exact List.mem_cons_self _ _
    · rw [if_neg hp] at h
      exact List.mem_cons_of_mem _ (ih h)

theorem mem_keysOf_insertD {α : Type} {m : List (String × α)} {k a : String} {v : α}
    (h : a ∈ keysOf (insertD m k v)) : a = k ∨ a ∈ keysOf m := by
  induction m with
  | nil => simpa [insertD, keysOf] using h
  | cons p m ih =>
    simp only [insertD] at h
    by_cases hp : p.1 = k
    · rw [if_pos hp] at h
      simp only [keysOf, List.map_cons, List.mem_cons] at h ⊢
      rcases h with h | h
      · exact Or.inl h
      · exact Or.inr (Or.inr h)
    · rw [if_neg hp] at h
      simp only [keysOf, List.map_cons, List.mem_cons] at h ⊢
      rcases h with h | h
      · exact Or.inr (Or.inl h)
      · rcases ih h with h | h
        · exact Or.inl h
        · exact Or.inr (Or.inr h)

theorem mem_valuesOf_insertD {m : List (String × String)} {k a : String} {v : String}
    (h : a ∈ valuesOf (insertD m k v)) : a = v ∨ a ∈ valuesOf m := by
  induction m with
  | nil => simpa [insertD, valuesOf] using h
  | cons p m ih =>
    simp only [insertD] at h
    by_cases hp : p.1 = k
    · rw [if_pos hp] at h
      simp only [valuesOf, List.map_cons, List.mem_cons] at h ⊢
      rcases h with h | h
      · exact Or.inl h
      · exact Or.inr (Or.inr h)
    · rw [if_neg hp] at h
      simp only [valuesOf, List.map_cons, List.mem_cons] at h ⊢
      rcases h with h | h
      · exact Or.inr (Or.inl h)
      · rcases ih h with h | h
        · exact Or.inl h
        · exact Or.inr (Or.inr h)

theorem nodup_keysOf_insertD {α : Type} {m : List (String × α)} (k : String) (v : α)
    (h : (keysOf m).Nodup) : (keysOf (insertD m k v)).Nodup := by
  induction m with
  | nil => simp [insertD, keysOf]
  | cons p m ih =>
    simp only [insertD]
    by_cases hp : p.1 = k
    · rw [if_pos hp]
      simpa [keysOf, ← hp] using h
    · rw [if_neg hp]
      simp only [keysOf, List.map_cons, List.nodup_cons] at h ⊢
      refine ⟨?_, ih h.2⟩
      intro hcon
      rcases mem_keysOf_insertD hcon with hcon | hcon
      · exact hp hcon
      · exact h.1 hcon

theorem nodup_valuesOf_insertD {m : List (String × String)} (k v : String)
    (hv : (valuesOf m).Nodup) (hnv : v ∉ valuesOf m) :
    (valuesOf (insertD m k v)).Nodup := by
  induction m with
  | nil => simp [insertD, valuesOf]
  | cons p m ih =>
    simp only [insertD]
    by_cases hp : p.1 = k
    · rw [if_pos hp]
      simp only [valuesOf, List.map_cons, List.nodup_cons, List.mem_cons] at hv hnv ⊢
      push_neg at hnv
      refine ⟨?_, hv.2⟩
      intro hcon
      exact hnv.2 hcon
    · rw [if_neg hp]
      simp only [valuesOf, List.map_cons, List.nodup_cons, List.mem_cons] at hv hnv ⊢
      push_neg at hnv
      refine ⟨?_, ih hv.2 hnv.2⟩
      intro hcon
      rcases mem_valuesOf_insertD hcon with hcon | hcon
      · exact hnv.1 hcon.symm
      · exact hv.1 hcon

theorem keysOf_eraseD_sublist {α : Type} (m : List (String × α)) (k : String) :
    (keysOf (eraseD m k)).Sublist (keysOf m) :=
  (List.filter_sublist m).map Prod.fst

theorem valuesOf_eraseD_sublist (m : List (String × String)) (k : String) :
    (valuesOf (eraseD m k)).Sublist (valuesOf m) :=
  (List.filter_sublist m).map Prod.snd

theorem not_mem_keysOf_eraseD {α : Type} (m : List (String × α)) (k : String) :
    k ∉ keysOf (eraseD m k) := by
  intro h
  obtain ⟨q, hq, hqk⟩ := List.mem_map.mp h
  rw [eraseD, List.mem_filter] at hq
  rw [hqk] at hq
  simp at hq

theorem valuesOf_eraseD_not_mem {m : List (String × String)} {sid a : String}
    (hv : (valuesOf m).Nodup) (hmem : (sid, a) ∈ m) :
    a ∉ valuesOf (eraseD m sid) := by
  intro hcon
  obtain ⟨q, hq, hqa⟩ := List.mem_map.mp hcon
  rw [eraseD, List.mem_filter] at hq
  have hEq : q = (sid, a) := List.inj_on_of_nodup_map hv hq.1 hmem (by rw [hqa])
  rw [hEq] at hq
  simp at hq

/-- The inductive invariant of the presence registry: keys of the live
mapping and of the reservation table are duplicate-free, the live aliases are
pairwise distinct, no alias is both live and reserved, and every alias in
either structure is a generated `Anon-User-<k>` with `1 ≤ k ≤
current_anon_id`. -/
structure RegInv (st : ServerState) : Prop where
  keysN : (keysOf st.user_aliases).Nodup
  valsN : (valuesOf st.user_aliases).Nodup
  tkeysN : (keysOf st.temporary_sessions).Nodup
  disj : ∀ a, a ∈ valuesOf st.user_aliases → a ∉ keysOf st.temporary_sessions
  bounded : ∀ a, a ∈ valuesOf st.user_aliases ∨ a ∈ keysOf st.temporary_sessions →
    ∃ k, 1 ≤ k ∧ k ≤ st.current_anon_id ∧ a = anonAlias k

theorem regInv_of_eq {st st' : ServerState} (h : RegInv st)
    (h1 : st'.user_aliases = st.user_aliases)
    (h2 : st'.temporary_sessions = st.temporary_sessions)
    (h3 : st'.current_anon_id = st.current_anon_id) : RegInv st' := by
  refine ⟨?_, ?_, ?_, ?_, ?_⟩
  · rw [h1]; exact h.keysN
  · rw [h1]; exact h.valsN
  · rw [h2]; exact h.tkeysN
  · rw [h1, h2]; exact h.disj
  · rw [h1, h2, h3]; exact h.bounded

theorem freshAlias_not_mem {st : ServerState} (h : RegInv st) :
    anonAlias (st.current_anon_id + 1) ∉ valuesOf st.user_aliases
    ∧ anonAlias (st.current_anon_id + 1) ∉ keysOf st.temporary_sessions := by
  constructor
  · intro hcon
    obtain ⟨k, hk1, hk2, hk3⟩ := h.bounded _ (Or.inl hcon)
    have := anonAlias_inj hk3.symm
    omega
  · intro hcon
    obtain ⟨k, hk1, hk2, hk3⟩ := h.bounded _ (Or.inr hcon)
    have := anonAlias_inj hk3.symm
    omega

theorem regInv_fresh {st : ServerState} (sid : String) (h : RegInv st) :
    RegInv (freshOutcome st sid).1 := by
  obtain ⟨hnv, hnt⟩ := freshAlias_not_mem h
  refine ⟨?_, ?_, ?_, ?_, ?_⟩
  · exact nodup_keysOf_insertD sid _ h.keysN
  · exact nodup_valuesOf_insertD sid _ h.valsN hnv
  · exact h.tkeysN
  · intro a ha
    rcases mem_valuesOf_insertD ha with rfl | ha
    · exact hnt
    · exact h.disj a ha
  · intro a ha
    rcases ha with ha | ha
    · rcases mem_valuesOf_insertD ha with rfl | ha
      · exact ⟨st.current_anon_id + 1, by omega, by simp [freshOutcome], rfl⟩
      · obtain ⟨k, hk1, hk2, hk3⟩ := h.bounded a (Or.inl ha)
        exact ⟨k, hk1, by simp [freshOutcome]; omega, hk3⟩
    · obtain ⟨k, hk1, hk2, hk3⟩ := h.bounded a (Or.inr ha)
      exact ⟨k, hk1, by simp [freshOutcome]; omega, hk3⟩

theorem regInv_consume {st : ServerState} (sid c : String) (e : Int) (h : RegInv st)
    (hl : lookupD st.temporary_sessions c = some e) :
    RegInv { st with temporary_sessions := eraseD st.temporary_sessions c,
                     user_aliases := insertD st.user_aliases sid c } := by
  have hck : c ∈ keysOf st.temporary_sessions := mem_keysOf_of_lookupD hl
  have hcv : c ∉ valuesOf st.user_aliases := fun hcon => h.disj c hcon hck
  refine ⟨?_, ?_, ?_, ?_, ?_⟩
  · exact nodup_keysOf_insertD sid _ h.keysN
  · exact nodup_valuesOf_insertD sid _ h.valsN hcv
  · exact (keysOf_eraseD_sublist _ _).nodup h.tkeysN
  · intro a ha
    rcases mem_valuesOf_insertD ha with rfl | ha
    · exact not_mem_keysOf_eraseD _ _
    · intro hcon
      exact h.disj a ha ((keysOf_eraseD_sublist _ _).mem hcon)
  · intro a ha
    rcases ha with ha | ha
    · rcases mem_valuesOf_insertD ha with rfl | ha
      · exact h.bounded a (Or.inr hck)
      · exact h.bounded a (Or.inl ha)
    · exact h.bounded a (Or.inr ((keysOf_eraseD_sublist _ _).mem ha))

theorem regInv_gar (st : ServerState) (sid : String) (provided : Option String) (now : Int)
    (h : RegInv st) : RegInv (get_alias_or_reconnect st sid provided now).1 := by
  cases provided with
  | none =>
    rw [gar_none]
    exact regInv_fresh sid h
  | some c =>
    by_cases hne : c = ""
    · subst hne
      cases hl : lookupD st.temporary_sessions "" with
      | none =>
        rw [gar_absent st sid "" now hl]
        exact regInv_fresh sid h
      | some e =>
        by_cases hv : now < e
        · rw [show get_alias_or_reconnect st sid (some "") now = freshOutcome st sid from by
            simp [get_alias_or_reconnect, freshOutcome]]
          exact regInv_fresh sid h
        · rw [gar_expired st sid "" now e hl hv]
          exact regInv_fresh sid h
    · cases hl : lookupD st.temporary_sessions c with
      | none =>
        rw [gar_absent st sid c now hl]
        exact regInv_fresh sid h
      | some e =>
        by_cases hv : now < e
        · rw [gar_consume st sid c now e hne hl hv]
          exact regInv_consume sid c e h hl
        · rw [gar_expired st sid c now e hl hv]
          exact regInv_fresh sid h

theorem regInv_connect (st : ServerState) (sid : String) (provided : Option String)
    (now : Int) (h : RegInv st) : RegInv (handle_connect st sid provided now).1 :=
  regInv_gar st sid provided now h

theorem regInv_disconnect (st : ServerState) (sid : String) (now : Int) (h : RegInv st) :
    RegInv (handle_disconnect st sid now).1 := by
  rw [handle_disconnect]
  cases hl : lookupD st.user_aliases sid with
  | none =>
    simp only [hl, Option.getD_none]
    have hinv : RegInv { st with user_aliases := eraseD st.user_aliases sid } := by
      refine ⟨?_, ?_, ?_, ?_, ?_⟩
      · exact (keysOf_eraseD_sublist _ _).nodup h.keysN
      · exact (valuesOf_eraseD_sublist _ _).nodup h.valsN
      · exact h.tkeysN
      · intro a ha
        exact h.disj a ((valuesOf_eraseD_sublist _ _).mem ha)
      · intro a ha
        rcases ha with ha | ha
        · exact h.bounded a (Or.inl ((valuesOf_eraseD_sublist _ _).mem ha))
        · exact h.bounded a (Or.inr ha)
    refine regInv_of_eq hinv ?_ ?_ ?_
    · by_cases ht : "Unknown User" ∈ st.typing_users <;> simp [ht]
    · by_cases ht : "Unknown User" ∈ st.typing_users <;> simp [ht]
    · by_cases ht : "Unknown User" ∈ st.typing_users <;> simp [ht]
  | some a =>
    simp only [hl, Option.getD_some]
    have hmem : (sid, a) ∈ st.user_aliases := lookupD_mem hl
    have hav : a ∈ valuesOf st.user_aliases := List.mem_map_of_mem Prod.snd hmem
    obtain ⟨k, hk1, hk2, hk3⟩ := h.bounded a (Or.inl hav)
    have hne : a ≠ "Unknown User" := by rw [hk3]; exact anonAlias_ne_unknownUser k
    have hanotin : a ∉ valuesOf (eraseD st.user_aliases sid) :=
      valuesOf_eraseD_not_mem h.valsN hmem
    have hinv : RegInv { st with
        user_aliases := eraseD st.user_aliases sid,
        temporary_sessions :=
          insertD st.temporary_sessions a (now + PERSISTENCE_TIMEOUT_SECONDS) } := by
      refine ⟨?_, ?_, ?_, ?_, ?_⟩
      · exact (keysOf_eraseD_sublist _ _).nodup h.keysN
      · exact (valuesOf_eraseD_sublist _ _).nodup h.valsN
      · exact nodup_keysOf_insertD a _ h.tkeysN
      · intro b hb
        intro hcon
        rcases mem_keysOf_insertD hcon with rfl | hcon
        · exact hanotin hb
        · exact h.disj b ((valuesOf_eraseD_sublist _ _).mem hb) hcon
      · intro b hb
        rcases hb with hb | hb
        · exact h.bounded b (Or.inl ((valuesOf_eraseD_sublist _ _).mem hb))
        · rcases mem_keysOf_insertD hb with rfl | hb
          · exact ⟨k, hk1, hk2, hk3⟩
          · exact h.bounded b (Or.inr hb)
    refine regInv_of_eq hinv ?_ ?_ ?_
    · by_cases ht : a ∈ st.typing_users <;> simp [ht]
    · by_cases ht : a ∈ st.typing_users <;> simp [ht, hne]
    · by_cases ht : a ∈ st.typing_users <;> simp [ht]

theorem regInv_send (st : ServerState) (sid : String) (m : Option String) (now : Int)
    (h : RegInv st) : RegInv (handle_send_message st sid m now).1 := by
  refine regInv_of_eq h ?_ ?_ ?_ <;>
    (rw [handle_send_message]; by_cases hmsg : msgTruthy m = true <;> simp [hmsg])

theorem regInv_is_typing (st : ServerState) (sid : String) (h : RegInv st) :
    RegInv (handle_is_typing st sid).1 := by
  refine regInv_of_eq h ?_ ?_ ?_ <;>
    (rw [handle_is_typing]
     by_cases ht : (lookupD st.user_aliases sid).getD "Unknown Anon" ∈ st.typing_users <;>
       simp [ht])

theorem regInv_not_typing (st : ServerState) (sid : String) (h : RegInv st) :
    RegInv (handle_not_typing st sid).1 := by
  refine regInv_of_eq h ?_ ?_ ?_ <;>
    (rw [handle_not_typing]
     by_cases ht : (lookupD st.user_aliases sid).getD "Unknown Anon" ∈ st.typing_users <;>
       simp [ht])

theorem regInv_step (st : ServerState) (e : Event) (h : RegInv st) : RegInv (step st e).1 := by
  cases e with
  | connect sid provided now => exact regInv_connect st sid provided now h
  | disconnect sid now => exact regInv_disconnect st sid now h
  | send_message sid m now => exact regInv_send st sid m now h
  | is_typing sid => exact regInv_is_typing st sid h
  | not_typing sid => exact regInv_not_typing st sid h

theorem regInv_init : RegInv initState := by
  refine ⟨?_, ?_, ?_, ?_, ?_⟩ <;> simp [initState, keysOf, valuesOf]

theorem regInv_run (evs : List Event) : RegInv (run evs) := by
  rw [run]
  have hgen : ∀ st, RegInv st →
      RegInv (evs.foldl (fun st e => (step st e).1) st) := by
    induction evs with
    | nil => intro st h; exact h
    | cons e evs ih =>
      intro st h
      exact ih _ (regInv_step st e h)
  exact hgen initState regInv_init

/-- Claim C2: in every state reachable from the empty initial state by any
sequence of connect, disconnect, send_message, is_typing and not_typing
events, the live mapping from connection identity to alias is injective —
the sids are pairwise distinct and no two live connections hold the same
alias — and no alias is simultaneously a value of the live presence mapping
and a key of the reservation table. -/
theorem claim_C2 (evs : List Event) (a : String)
    (ha : a ∈ valuesOf (run evs).user_aliases) :
    (valuesOf (run evs).user_aliases).Nodup
    ∧ (keysOf (run evs).user_aliases).Nodup
    ∧ a ∉ keysOf (run evs).temporary_sessions :=
  ⟨(regInv_run evs).valsN, (regInv_run evs).keysN, (regInv_run evs).disj a ha⟩

theorem claim_C2_witness :
    "Anon-User-2" ∈ valuesOf (run [Event.connect "s1" none 0, Event.disconnect "s1" 0,
        Event.connect "s2" none 10]).user_aliases
    ∧ ((valuesOf (run [Event.connect "s1" none 0, Event.disconnect "s1" 0,
          Event.connect "s2" none 10]).user_aliases).Nodup
      ∧ (keysOf (run [Event.connect "s1" none 0, Event.disconnect "s1" 0,
          Event.connect "s2" none 10]).user_aliases).Nodup
      ∧ "Anon-User-2" ∉ keysOf (run [Event.connect "s1" none 0, Event.disconnect "s1" 0,
          Event.connect "s2" none 10]).temporary_sessions) :=
  ⟨by decide,
   claim_C2 [Event.connect "s1" none 0, Event.disconnect "s1" 0, Event.connect "s2" none 10]
     "Anon-User-2" (by decide)⟩

example : censor_message "you fuck" = "you ****" := by decide
example : censor_message "classic" = "classic" := by decide
example : censor_message "Fuck harass!" = "**** ******!" := by decide
example : censor_message "harassment" = "harassment" := by decide
